import Mathlib

/-!
# Consistent-hash ring and tracker registry of `dfs`

A shallow embedding of `pkg/consistent/consistent.go` (the hash ring) and of
`internal/tracker/server.go` (the node registry built on it), followed by the
properties of the two that the specification states.

Modelling conventions.

* A Go `string` is a finite byte sequence; it is embedded as `GoString`, a list
  of natural numbers, each byte a number below 256.
* `uint32` hashes are natural numbers; `ChecksumIEEE` only ever produces values
  below `2 ^ 32`.
* A Go `map[K]V` is embedded as an association list that holds each key at most
  once.  The iteration order of a Go map is unspecified; every statement below
  that concerns a `range` over a map is phrased through membership, and the one
  place where the code keeps the first element of such an iteration takes the
  position of that element as an explicit argument.
* A Go runtime panic (index out of range) is the value `none`.
* The mutexes are not modelled: every method holds its lock for its whole body,
  so the methods are atomic state transformers.
-/

namespace Dfs

/-! ## Strings -/

/-- A Go string: a sequence of bytes. -/
abbrev GoString := List Nat

/-- The bytes of an ASCII literal. -/
def str (s : String) : GoString := s.toList.map Char.toNat

/-- Digits of `n` in base ten, most significant first, pushed in front of `acc`;
`fuel` bounds the number of digits. -/
def itoaDigits : Nat → Nat → GoString → GoString
  | 0, _, acc => acc
  | fuel + 1, n, acc =>
    if n < 10 then (48 + n) :: acc
    else itoaDigits fuel (n / 10) ((48 + n % 10) :: acc)

/-- Go `strconv.Itoa` on a non-negative integer: its decimal representation. -/
def Itoa (n : Nat) : GoString := itoaDigits (n + 1) n []

/-- Go `string(rune(i))` for a non-negative `i`: the UTF-8 encoding of the code
point `i`, and the encoding of U+FFFD when `i` is a surrogate or lies above
U+10FFFF (`utf8.EncodeRune`). -/
def runeString (i : Nat) : GoString :=
  if i ≤ 0x7F then [i]
  else if i ≤ 0x7FF then [0xC0 ||| (i >>> 6), 0x80 ||| (i &&& 0x3F)]
  else if i > 0x10FFFF ∨ (0xD800 ≤ i ∧ i ≤ 0xDFFF) then [0xEF, 0xBF, 0xBD]
  else if i ≤ 0xFFFF then
    [0xE0 ||| (i >>> 12), 0x80 ||| ((i >>> 6) &&& 0x3F), 0x80 ||| (i &&& 0x3F)]
  else
    [0xF0 ||| (i >>> 18), 0x80 ||| ((i >>> 12) &&& 0x3F),
      0x80 ||| ((i >>> 6) &&& 0x3F), 0x80 ||| (i &&& 0x3F)]

/-! ## CRC-32 (`hash/crc32`, IEEE polynomial) -/

/-- One step of the table construction: shift right, and fold the reversed IEEE
polynomial in when the low bit was set. -/
def crcStep (crc : Nat) : Nat :=
  if crc % 2 = 1 then (crc / 2) ^^^ 0xEDB88320 else crc / 2

/-- Entry `i` of the IEEE table: eight steps starting from `i`. -/
def ieeeTable (i : Nat) : Nat :=
  crcStep (crcStep (crcStep (crcStep (crcStep (crcStep (crcStep (crcStep i)))))))

/-- The body of the update loop: `crc = tab[byte(crc) ^ v] ^ (crc >> 8)`. -/
def crcUpdate (crc v : Nat) : Nat :=
  ieeeTable ((crc % 256) ^^^ (v % 256)) ^^^ (crc / 256)

/-- Go `crc32.ChecksumIEEE`: start from the complement of zero, run the update
loop over the bytes, complement the result. -/
def ChecksumIEEE (data : GoString) : Nat :=
  (data.foldl crcUpdate 0xFFFFFFFF) ^^^ 0xFFFFFFFF

/-! ## Go maps -/

/-- The map read `m[k]` with the comma-ok form: the value stored under `k`. -/
def mapLookup {K V : Type} [DecidableEq K] : List (K × V) → K → Option V
  | [], _ => none
  | (k', v) :: t, k => if k' = k then some v else mapLookup t k

/-- The map write `m[k] = v`: overwrite the entry of `k`, or add one. -/
def mapSet {K V : Type} [DecidableEq K] : List (K × V) → K → V → List (K × V)
  | [], k, v => [(k, v)]
  | (k', v') :: t, k, v => if k' = k then (k, v) :: t else (k', v') :: mapSet t k v

/-- The builtin `delete(m, k)`. -/
def mapDelete {K V : Type} [DecidableEq K] (m : List (K × V)) (k : K) : List (K × V) :=
  m.filter (fun e => !decide (e.1 = k))

/-- The keys of a map. -/
def mapKeys {K V : Type} (m : List (K × V)) : List K := m.map Prod.fst

/-- The first element a `range` over the map yields: Go leaves the order
unspecified, so the position is an argument; `none` when the map is empty. -/
def rangeFirst {K V : Type} (m : List (K × V)) (pos : Nat) : Option (K × V) :=
  m[pos % m.length]?

/-! ## `sort` -/

/-- The loop of Go `sort.Search`: binary search in `[i, j)` for the first index
at which `f` holds. -/
def searchLoop (f : Nat → Bool) : Nat → Nat → Nat → Nat
  | 0, i, _ => i
  | fuel + 1, i, j =>
    if i < j then
      let h := (i + j) / 2
      if !f h then searchLoop f fuel (h + 1) j else searchLoop f fuel i h
    else i

/-- Go `sort.Search(n, f)`; the interval shrinks at every round, so `n` rounds
are enough. -/
def Search (n : Nat) (f : Nat → Bool) : Nat := searchLoop f n 0 n

/-- Go `sort.Slice` with the comparison `<` on hashes: the ascending
rearrangement of the slice. -/
def sortSlice (l : List Nat) : List Nat := l.insertionSort (fun a b => a ≤ b)

/-! ## The hash ring (`pkg/consistent/consistent.go`) -/

/-- The struct `Consistent` (its mutex apart). -/
structure Consistent where
  nodes : List (Nat × GoString)
  sortedHashes : List Nat
  replicas : Int
  deriving DecidableEq, Repr

/-- Go `NewConsistent`. -/
def NewConsistent (replicas : Int) : Consistent :=
  { nodes := [], sortedHashes := [], replicas := replicas }

/-- The key of virtual node `i`: `node + "#" + strconv.Itoa(i)`. -/
def virtualKey (node : GoString) (i : Nat) : GoString :=
  node ++ str "#" ++ Itoa i

/-- The hash of virtual node `i` of `node`. -/
def virtualHash (node : GoString) (i : Nat) : Nat := ChecksumIEEE (virtualKey node i)

/-- The `for` loop of `addNode`, over the remaining values of `i`. -/
def addNodeLoop (node : GoString) : List Nat → Consistent → Consistent
  | [], c => c
  | i :: rest, c =>
    let hash := virtualHash node i
    addNodeLoop node rest
      { c with nodes := mapSet c.nodes hash node, sortedHashes := c.sortedHashes ++ [hash] }

/-- Go `Consistent.addNode`. -/
def addNode (c : Consistent) (node : GoString) : Consistent :=
  let c1 := addNodeLoop node (List.range c.replicas.toNat) c
  { c1 with sortedHashes := sortSlice c1.sortedHashes }

/-- Go `Consistent.AddNode`. -/
def AddNode (c : Consistent) (node : GoString) : Consistent := addNode c node

/-- The index `GetNode` reads `sortedHashes` at: the result of the binary
search, reset to zero when it is the length of the slice. -/
def ringIndex (c : Consistent) (key : GoString) : Nat :=
  let hash := ChecksumIEEE key
  let idx := Search c.sortedHashes.length (fun i => decide (c.sortedHashes.getD i 0 ≥ hash))
  if idx = c.sortedHashes.length then 0 else idx

/-- Go `Consistent.GetNode`; `none` is the index-out-of-range panic. -/
def GetNode (c : Consistent) (key : GoString) : Option GoString :=
  if c.nodes.length = 0 then some []
  else
    match c.sortedHashes[ringIndex c key]? with
    | none => none
    | some h => some ((mapLookup c.nodes h).getD [])

/-- The first `for` loop of `RemoveNode`, over the remaining values of `i`. -/
def removeLoop (node : GoString) : List Nat → List (Nat × GoString) → List (Nat × GoString)
  | [], m => m
  | i :: rest, m => removeLoop node rest (mapDelete m (virtualHash node i))

/-- Go `Consistent.RemoveNode`. -/
def RemoveNode (c : Consistent) (node : GoString) : Consistent :=
  let nodes := removeLoop node (List.range c.replicas.toNat) c.nodes
  { c with nodes := nodes, sortedHashes := sortSlice (mapKeys nodes) }

/-- Go `Consistent.GetNodes`: collect the members in a set, list the set. -/
def GetNodes (c : Consistent) : List GoString :=
  let nodeMap := c.nodes.foldl (fun (m : List (GoString × Bool)) e => mapSet m e.2 true) []
  mapKeys nodeMap

/-! ## The tracker (`internal/tracker/server.go`) -/

/-- The message `pb.NodeInfo`, with the fields the tracker uses. -/
structure NodeInfo where
  NodeId : GoString
  Address : GoString
  Status : GoString
  AvailableSpace : Int
  deriving DecidableEq, Repr

/-- The message `pb.RegisterRequest`. -/
structure RegisterRequest where
  NodeId : GoString
  Address : GoString
  AvailableSpace : Int
  deriving DecidableEq, Repr

/-- The message `pb.RegisterResponse`. -/
structure RegisterResponse where
  Success : Bool
  Message : GoString
  deriving DecidableEq, Repr

/-- The message `pb.HeartbeatRequest`. -/
structure HeartbeatRequest where
  NodeId : GoString
  AvailableSpace : Int
  ChunkCount : Int
  deriving DecidableEq, Repr

/-- The message `pb.HeartbeatResponse`. -/
structure HeartbeatResponse where
  Success : Bool
  deriving DecidableEq, Repr

/-- The message `pb.GetUploadNodesRequest`. -/
structure GetUploadNodesRequest where
  FileId : GoString
  ChunkCount : Int
  deriving DecidableEq, Repr

/-- The struct `Server`: the membership table and the ring.  The field
`fileMeta` is never read or written after `NewServer` and is left out. -/
structure Server where
  nodes : List (GoString × NodeInfo)
  consistent : Consistent
  deriving DecidableEq, Repr

/-- Go `NewServer`. -/
def NewServer : Server := { nodes := [], consistent := NewConsistent 100 }

/-- Go `Server.RegisterNode`: the new state, the response and the error (always
`nil`, here `none`). -/
def RegisterNode (s : Server) (req : RegisterRequest) :
    Server × RegisterResponse × Option GoString :=
  let info : NodeInfo :=
    { NodeId := req.NodeId, Address := req.Address, Status := str "active",
      AvailableSpace := req.AvailableSpace }
  ({ nodes := mapSet s.nodes req.NodeId info, consistent := AddNode s.consistent req.NodeId },
   { Success := true, Message := str "node registered successfully" }, none)

/-- Go `Server.Heartbeat`. -/
def Heartbeat (s : Server) (req : HeartbeatRequest) :
    Server × HeartbeatResponse × Option GoString :=
  match mapLookup s.nodes req.NodeId with
  | some node =>
    let node1 : NodeInfo :=
      { node with Status := str "active", AvailableSpace := req.AvailableSpace }
    ({ s with nodes := mapSet s.nodes req.NodeId node1 }, { Success := true }, none)
  | none => (s, { Success := true }, none)

/-- The placement key of chunk `i`: `req.FileId + "_chunk_" + string(rune(i))`. -/
def chunkKey (fileId : GoString) (i : Nat) : GoString :=
  fileId ++ str "_chunk_" ++ runeString i

/-- The `for` loop of `GetUploadNodes` over the remaining ordinals; `order i` is
the position at which the fallback `range` of round `i` starts. -/
def uploadLoop (s : Server) (fileId : GoString) (order : Nat → Nat) :
    List Nat → List NodeInfo → Option (List NodeInfo)
  | [], nodes => some nodes
  | i :: rest, nodes =>
    match GetNode s.consistent (chunkKey fileId i) with
    | none => none
    | some nodeId =>
      match mapLookup s.nodes nodeId with
      | some node => uploadLoop s fileId order rest (nodes ++ [node])
      | none =>
        match rangeFirst s.nodes (order i) with
        | some n => uploadLoop s fileId order rest (nodes ++ [n.2])
        | none => uploadLoop s fileId order rest nodes

/-- Go `Server.GetUploadNodes`: the `Nodes` field of the response; `none` is a
panic inside the ring lookup. -/
def GetUploadNodes (s : Server) (req : GetUploadNodesRequest) (order : Nat → Nat) :
    Option (List NodeInfo) :=
  uploadLoop s req.FileId order (List.range req.ChunkCount.toNat) []

/-- Go `Server.ListNodes`: the records of the table. -/
def ListNodes (s : Server) : List NodeInfo := s.nodes.map Prod.snd

/-! ## Reachable states -/

/-- The rings obtained from `NewConsistent r` by `AddNode` and `RemoveNode`. -/
inductive RingReachable (r : Int) : Consistent → Prop
  | init : RingReachable r (NewConsistent r)
  | add (c : Consistent) (id : GoString) : RingReachable r c → RingReachable r (AddNode c id)
  | remove (c : Consistent) (id : GoString) :
      RingReachable r c → RingReachable r (RemoveNode c id)

/-- The registries obtained from `NewServer` by `RegisterNode` and `Heartbeat`. -/
inductive ServerReachable : Server → Prop
  | init : ServerReachable NewServer
  | register (s : Server) (req : RegisterRequest) :
      ServerReachable s → ServerReachable (RegisterNode s req).1
  | heartbeat (s : Server) (req : HeartbeatRequest) :
      ServerReachable s → ServerReachable (Heartbeat s req).1

/-! ## Specification vocabulary -/

/-- The hashes of the virtual nodes of `id` on a ring with replica count `r`, in
the order in which the loops of `addNode` and `RemoveNode` visit them. -/
def vhashes (r : Int) (id : GoString) : List Nat :=
  (List.range r.toNat).map (virtualHash id)

/-- The ring successor of the query hash `q` among `keys`: the least key that is
at least `q`, or the least key of all when no key is at least `q`. -/
def IsSuccessor (keys : List Nat) (q h : Nat) : Prop :=
  h ∈ keys ∧
    ((q ≤ h ∧ ∀ x ∈ keys, q ≤ x → h ≤ x) ∨ ((∀ x ∈ keys, x < q) ∧ ∀ x ∈ keys, h ≤ x))

/-- The index computed by `GetNode` on the slice `l` for the query hash `q`. -/
def wrapIndex (l : List Nat) (q : Nat) : Nat :=
  let idx := Search l.length (fun i => decide (l.getD i 0 ≥ q))
  if idx = l.length then 0 else idx

/-- The invariant of the ring: the node map holds each hash once, the slice is
ascending and holds exactly the hashes of the map, and every entry sits at the
hash of a virtual node of its member. -/
structure RingInv (c : Consistent) : Prop where
  nodupKeys : (mapKeys c.nodes).Nodup
  sorted : c.sortedHashes.Sorted (fun a b => a ≤ b)
  hashes_iff : ∀ h, h ∈ c.sortedHashes ↔ h ∈ mapKeys c.nodes
  owned : ∀ h m, (h, m) ∈ c.nodes → h ∈ vhashes c.replicas m

/-- The invariant of the registry: its ring is reachable with replica count
100, the table holds each id once, every record carries the id it is stored
under, and every virtual node of a registered id is a key of the ring. -/
structure ServerInv (s : Server) : Prop where
  ring : RingReachable 100 s.consistent
  nodupKeys : (mapKeys s.nodes).Nodup
  ids : ∀ k n, (k, n) ∈ s.nodes → n.NodeId = k
  inRing : ∀ k, k ∈ mapKeys s.nodes → ∀ h ∈ vhashes 100 k, h ∈ mapKeys s.consistent.nodes

/-- The id keeps a ring slot against the ids joined after it: one of the hashes
of its virtual keys is not the hash of a virtual key of any of them. -/
def KeepsSlot (r : Int) (id : GoString) (later : List GoString) : Prop :=
  ∃ h ∈ vhashes r id, ∀ b ∈ later, h ∉ vhashes r b

instance (r : Int) (id : GoString) (later : List GoString) : Decidable (KeepsSlot r id later) :=
  inferInstanceAs (Decidable (∃ h ∈ vhashes r id, ∀ b ∈ later, h ∉ vhashes r b))

/-- The member `m` survives the joins of `ids`, made in the order of the list:
it is one of the ids and keeps a slot against the ids joined after it. -/
def SurvivesIn (r : Int) (m : GoString) : List GoString → Prop
  | [] => False
  | id :: rest => (m = id ∧ KeepsSlot r id rest) ∨ SurvivesIn r m rest

/-- Every id of the list keeps a slot against the ids that follow it. -/
def AllKeepSlot (r : Int) : List GoString → Prop
  | [] => True
  | id :: rest => KeepsSlot r id rest ∧ AllKeepSlot r rest

/-- Decision procedure of `AllKeepSlot`, by recursion on the list. -/
def decAllKeepSlot (r : Int) : (ids : List GoString) → Decidable (AllKeepSlot r ids)
  | [] => isTrue trivial
  | id :: rest =>
    match decAllKeepSlot r rest with
    | isTrue h =>
      if hk : KeepsSlot r id rest then isTrue ⟨hk, h⟩ else isFalse (fun hh => hk hh.1)
    | isFalse h => isFalse (fun hh => h hh.2)

instance (r : Int) (ids : List GoString) : Decidable (AllKeepSlot r ids) := decAllKeepSlot r ids

/-! ## Concrete rings and registries -/

/-- The ring of the scenario: replica count 3, members `a` and `b`. -/
def ringAB : Consistent := AddNode (AddNode (NewConsistent 3) (str "a")) (str "b")

/-- A registration request of storage node `n1` with capacity 100. -/
def reqN1 : RegisterRequest :=
  { NodeId := str "n1", Address := str "localhost:50052", AvailableSpace := 100 }

/-- The registry after the one registration of `n1`. -/
def serverN1 : Server := (RegisterNode NewServer reqN1).1

/-- Two ids whose virtual keys have the same CRC-32 value. -/
def idX : GoString := str "xs4ibwwl"

/-- The id colliding with `idX`. -/
def idY : GoString := str "adwoqc8j"

/-- The ring with replica count 1 and the single member `idX`. -/
def ringX : Consistent := AddNode (NewConsistent 1) idX

/-- The ring with replica count 1 and the single member `idY`. -/
def ringY : Consistent := AddNode (NewConsistent 1) idY

/-- The ring of `TestConsistent_RemoveNode`: replica count 100, members `node1`
and `node2`. -/
def ringTest : Consistent :=
  AddNode (AddNode (NewConsistent 100) (str "node1")) (str "node2")

/-- A ring with replica count 3 whose members are the empty id and `b`. -/
def ringE : Consistent := AddNode (AddNode (NewConsistent 3) []) (str "b")

/-- Two ids that share two of their three virtual-key hashes at replica count 3. -/
def idP : GoString := str "mz6hi2"

/-- The id that shares two hashes with `idP`. -/
def idQ : GoString := str "sumby8"

/-! ## Sanity checks of the embedding -/

/-- The check value of CRC-32/IEEE. -/
theorem ChecksumIEEE_check : ChecksumIEEE (str "123456789") = 0xCBF43926 := by decide!

/-- `strconv.Itoa` on a three-digit number. -/
theorem Itoa_example : Itoa 907 = str "907" := by decide

/-- The UTF-8 encoding of the euro sign. -/
theorem runeString_example : runeString 0x20AC = [0xE2, 0x82, 0xAC] := by decide

/-- The binary search finds the first index whose element reaches the bound. -/
theorem Search_example :
    Search 5 (fun i => decide ([1, 3, 3, 7, 9].getD i 0 ≥ 3)) = 1 := by decide

/-- The two colliding ids hash to the same ring position. -/
theorem virtualHash_collision :
    idX ≠ idY ∧ virtualHash idX 0 = 4043864473 ∧ virtualHash idY 0 = 4043864473 := by
  decide!

/-! ## The hash is a 32-bit value -/

theorem crcStep_lt (crc : Nat) (h : crc < 2 ^ 32) : crcStep crc < 2 ^ 32 := by
  unfold crcStep
  split
  · exact Nat.xor_lt_two_pow (by omega) (by decide)
  · omega

theorem ieeeTable_lt (i : Nat) (h : i < 2 ^ 32) : ieeeTable i < 2 ^ 32 := by
  unfold ieeeTable
  exact crcStep_lt _ (crcStep_lt _ (crcStep_lt _ (crcStep_lt _ (crcStep_lt _ (crcStep_lt _
    (crcStep_lt _ (crcStep_lt _ h)))))))

theorem crcUpdate_lt (crc v : Nat) (h : crc < 2 ^ 32) : crcUpdate crc v < 2 ^ 32 := by
  unfold crcUpdate
  have h1 : (crc % 256) ^^^ (v % 256) < 2 ^ 32 :=
    Nat.xor_lt_two_pow (by omega) (by omega)
  exact Nat.xor_lt_two_pow (ieeeTable_lt _ h1) (by omega)

theorem foldl_crcUpdate_lt (data : GoString) (crc : Nat) (h : crc < 2 ^ 32) :
    data.foldl crcUpdate crc < 2 ^ 32 := by
  induction data generalizing crc with
  | nil => exact h
  | cons b t ih => exact ih _ (crcUpdate_lt crc b h)

/-- The checksum fits the Go type `uint32`. -/
theorem ChecksumIEEE_lt (data : GoString) : ChecksumIEEE data < 2 ^ 32 := by
  unfold ChecksumIEEE
  exact Nat.xor_lt_two_pow (foldl_crcUpdate_lt data _ (by decide)) (by decide)

/-! ## Facts about maps -/

section MapFacts

variable {K V : Type} [DecidableEq K]

theorem mapLookup_mapSet (m : List (K × V)) (k k' : K) (v : V) :
    mapLookup (mapSet m k v) k' = if k = k' then some v else mapLookup m k' := by
  induction m with
  | nil => simp [mapSet, mapLookup]
  | cons e t ih =>
    obtain ⟨a, b⟩ := e
    by_cases hak : a = k
    · subst hak
      by_cases hk : a = k' <;> simp [mapSet, mapLookup, hk]
    · by_cases hk : a = k'
      · subst hk
        simp [mapSet, mapLookup, hak, Ne.symm hak]
      · simp [mapSet, mapLookup, hak, hk, ih]

theorem mapLookup_mapDelete (m : List (K × V)) (k k' : K) :
    mapLookup (mapDelete m k) k' = if k = k' then none else mapLookup m k' := by
  induction m with
  | nil => simp [mapDelete, mapLookup]
  | cons e t ih =>
    obtain ⟨a, b⟩ := e
    simp only [mapDelete] at ih ⊢
    by_cases hak : a = k
    · subst hak
      by_cases hk : a = k'
      · subst hk
        simpa [mapLookup] using ih
      · simp [mapLookup, hk, ih]
    · by_cases hk : a = k'
      · subst hk
        simp [mapLookup, hak, Ne.symm hak, List.filter_cons]
      · simp [mapLookup, hak, hk, ih, List.filter_cons]

theorem mapLookup_eq_none_iff (m : List (K × V)) (k : K) :
    mapLookup m k = none ↔ k ∉ mapKeys m := by
  induction m with
  | nil => simp [mapLookup, mapKeys]
  | cons e t ih =>
    obtain ⟨a, b⟩ := e
    by_cases hak : a = k
    · simp [mapLookup, mapKeys, hak]
    · simp only [mapKeys] at ih
      simp [mapLookup, mapKeys, hak, ih, Ne.symm hak]

theorem mem_of_mapLookup (m : List (K × V)) (k : K) (v : V)
    (h : mapLookup m k = some v) : (k, v) ∈ m := by
  induction m with
  | nil => simp [mapLookup] at h
  | cons e t ih =>
    obtain ⟨a, b⟩ := e
    by_cases hak : a = k
    · simp [mapLookup, hak] at h
      simp [hak, h]
    · simp [mapLookup, hak] at h
      exact List.mem_cons_of_mem _ (ih h)

theorem mapLookup_of_mem (m : List (K × V)) (k : K) (v : V)
    (hnd : (mapKeys m).Nodup) (h : (k, v) ∈ m) : mapLookup m k = some v := by
  induction m with
  | nil => simp at h
  | cons e t ih =>
    obtain ⟨a, b⟩ := e
    simp only [mapKeys, List.map_cons, List.nodup_cons] at hnd
    rcases List.mem_cons.1 h with h | h
    · cases h
      simp [mapLookup]
    · have hne : a ≠ k := by
        intro hak
        apply hnd.1
        rw [hak]
        exact List.mem_map_of_mem Prod.fst h
      simp [mapLookup, hne, ih hnd.2 h]

omit [DecidableEq K] in
theorem mem_mapKeys_of_mem (m : List (K × V)) (k : K) (v : V) (h : (k, v) ∈ m) :
    k ∈ mapKeys m := List.mem_map_of_mem Prod.fst h

theorem mem_mapKeys_mapSet (m : List (K × V)) (k k' : K) (v : V) :
    k' ∈ mapKeys (mapSet m k v) ↔ k' = k ∨ k' ∈ mapKeys m := by
  have h1 := mapLookup_eq_none_iff (mapSet m k v) k'
  have h2 := mapLookup_eq_none_iff m k'
  rw [mapLookup_mapSet] at h1
  by_cases hk : k = k'
  · simp only [hk, if_true] at h1
    simp only [hk, true_or, iff_true]
    by_contra hc
    exact absurd (h1.2 hc) (by simp)
  · simp only [hk, if_false] at h1
    have hk' : ¬ k' = k := fun h => hk h.symm
    simp only [hk', false_or]
    constructor
    · intro h
      by_contra hc
      exact (h1.1 (h2.2 hc)) h
    · intro h
      by_contra hc
      exact (h2.1 (h1.2 hc)) h

theorem mapKeys_mapSet_nodup (m : List (K × V)) (k : K) (v : V)
    (hnd : (mapKeys m).Nodup) : (mapKeys (mapSet m k v)).Nodup := by
  induction m with
  | nil => simp [mapSet, mapKeys]
  | cons e t ih =>
    obtain ⟨a, b⟩ := e
    simp only [mapKeys, List.map_cons, List.nodup_cons] at hnd
    by_cases hak : a = k
    · subst hak
      simpa [mapSet, mapKeys] using hnd
    · have hmem := mem_mapKeys_mapSet t k a v
      simp only [mapKeys] at hmem ih
      simp only [mapSet, hak, if_false, mapKeys, List.map_cons, List.nodup_cons]
      refine ⟨?_, ih hnd.2⟩
      rw [hmem]
      rintro (h | h)
      · exact hak h
      · exact hnd.1 h

theorem mapKeys_mapDelete_nodup (m : List (K × V)) (k : K)
    (hnd : (mapKeys m).Nodup) : (mapKeys (mapDelete m k)).Nodup := by
  unfold mapKeys mapDelete at *
  exact hnd.sublist ((List.filter_sublist m).map Prod.fst)

theorem mapSet_eq_self (m : List (K × V)) (k : K) (v : V)
    (h : mapLookup m k = some v) : mapSet m k v = m := by
  induction m with
  | nil => simp [mapLookup] at h
  | cons e t ih =>
    obtain ⟨a, b⟩ := e
    by_cases hak : a = k
    · simp [mapLookup, hak] at h
      simp [mapSet, hak, h]
    · simp [mapLookup, hak] at h
      simp [mapSet, hak, ih h]

theorem mapSet_ne_nil (m : List (K × V)) (k : K) (v : V) : mapSet m k v ≠ [] := by
  cases m with
  | nil => simp [mapSet]
  | cons e t =>
    obtain ⟨a, b⟩ := e
    by_cases hak : a = k <;> simp [mapSet, hak]

end MapFacts

/-! ## Facts about `sort.Search` and `sort.Slice` -/

theorem searchLoop_spec (f : Nat → Bool) (n : Nat)
    (mono : ∀ x y, x ≤ y → y < n → f x = true → f y = true) :
    ∀ fuel i j, j - i ≤ fuel → i ≤ j → j ≤ n →
      (∀ x, x < i → f x = false) → (∀ x, j ≤ x → x < n → f x = true) →
      searchLoop f fuel i j ≤ j ∧ (∀ x, x < searchLoop f fuel i j → f x = false) ∧
        (∀ x, searchLoop f fuel i j ≤ x → x < n → f x = true) := by
  intro fuel
  induction fuel with
  | zero =>
    intro i j hfuel hij _ hlo hhi
    have hji : j = i := by omega
    subst hji
    simp only [searchLoop]
    exact ⟨le_refl _, hlo, hhi⟩
  | succ fuel ih =>
    intro i j hfuel hij hjn hlo hhi
    by_cases hlt : i < j
    · have hmid1 : i ≤ (i + j) / 2 := by omega
      have hmid2 : (i + j) / 2 < j := by omega
      cases hf : f ((i + j) / 2) with
      | false =>
        have hrec := ih ((i + j) / 2 + 1) j (by omega) (by omega) hjn
          (by
            intro x hx
            cases hfx : f x with
            | false => rfl
            | true =>
              have := mono x ((i + j) / 2) (by omega) (by omega) hfx
              rw [hf] at this
              exact absurd this (by simp))
          hhi
        simpa [searchLoop, hlt, hf] using hrec
      | true =>
        have hrec := ih i ((i + j) / 2) (by omega) hmid1 (by omega) hlo
          (by
            intro x hx hxn
            exact mono ((i + j) / 2) x hx hxn hf)
        simp only [searchLoop, hlt, if_true, hf]
        exact ⟨le_trans hrec.1 (le_of_lt hmid2), hrec.2.1, hrec.2.2⟩
    · have hji : j = i := by omega
      subst hji
      simp only [searchLoop, hlt, if_false]
      exact ⟨le_refl _, hlo, hhi⟩

theorem Search_spec (f : Nat → Bool) (n : Nat)
    (mono : ∀ x y, x ≤ y → y < n → f x = true → f y = true) :
    Search n f ≤ n ∧ (∀ x, x < Search n f → f x = false) ∧
      (∀ x, Search n f ≤ x → x < n → f x = true) := by
  unfold Search
  exact searchLoop_spec f n mono n 0 n (by omega) (Nat.zero_le _) (le_refl _)
    (fun x hx => absurd hx (Nat.not_lt_zero x)) (fun x hx hxn => absurd hxn (by omega))

theorem sorted_getD_le (l : List Nat) (hs : l.Sorted (fun a b => a ≤ b)) (i j : Nat)
    (hij : i ≤ j) (hj : j < l.length) : l.getD i 0 ≤ l.getD j 0 := by
  have hi : i < l.length := lt_of_le_of_lt hij hj
  rw [List.getD_eq_getElem l 0 hi, List.getD_eq_getElem l 0 hj]
  have := hs.rel_get_of_le (a := ⟨i, hi⟩) (b := ⟨j, hj⟩) (Fin.mk_le_mk.2 hij)
  simpa [List.get_eq_getElem] using this

theorem mem_sortSlice (l : List Nat) (x : Nat) : x ∈ sortSlice l ↔ x ∈ l :=
  (List.perm_insertionSort _ l).mem_iff

theorem sorted_sortSlice (l : List Nat) : (sortSlice l).Sorted (fun a b => a ≤ b) :=
  List.sorted_insertionSort _ l

theorem length_sortSlice (l : List Nat) : (sortSlice l).length = l.length :=
  List.length_insertionSort _ l

theorem IsSuccessor_unique (keys : List Nat) (q h h' : Nat)
    (h1 : IsSuccessor keys q h) (h2 : IsSuccessor keys q h') : h = h' := by
  obtain ⟨hm, hc⟩ := h1
  obtain ⟨hm', hc'⟩ := h2
  rcases hc with ⟨hq, hmin⟩ | ⟨hall, hmin⟩ <;> rcases hc' with ⟨hq', hmin'⟩ | ⟨hall', hmin'⟩
  · exact le_antisymm (hmin h' hm' hq') (hmin' h hm hq)
  · exact absurd (hall' h hm) (by omega)
  · exact absurd (hall h' hm') (by omega)
  · exact le_antisymm (hmin h' hm') (hmin' h hm)

theorem IsSuccessor_congr (keys keys' : List Nat) (q h : Nat)
    (hk : ∀ x, x ∈ keys ↔ x ∈ keys') (h1 : IsSuccessor keys q h) : IsSuccessor keys' q h := by
  obtain ⟨hm, hc⟩ := h1
  refine ⟨(hk h).1 hm, ?_⟩
  rcases hc with ⟨hq, hmin⟩ | ⟨hall, hmin⟩
  · exact Or.inl ⟨hq, fun x hx => hmin x ((hk x).2 hx)⟩
  · exact Or.inr ⟨fun x hx => hall x ((hk x).2 hx), fun x hx => hmin x ((hk x).2 hx)⟩

theorem IsSuccessor_subset (keys keys' : List Nat) (q h : Nat)
    (hsub : ∀ x, x ∈ keys → x ∈ keys') (hm : h ∈ keys)
    (h1 : IsSuccessor keys' q h) : IsSuccessor keys q h := by
  obtain ⟨_, hc⟩ := h1
  refine ⟨hm, ?_⟩
  rcases hc with ⟨hq, hmin⟩ | ⟨hall, hmin⟩
  · exact Or.inl ⟨hq, fun x hx => hmin x (hsub x hx)⟩
  · exact Or.inr ⟨fun x hx => hall x (hsub x hx), fun x hx => hmin x (hsub x hx)⟩

theorem wrapIndex_spec (l : List Nat) (q : Nat) (hs : l.Sorted (fun a b => a ≤ b))
    (hne : l ≠ []) :
    wrapIndex l q < l.length ∧ ∃ h, l[wrapIndex l q]? = some h ∧ IsSuccessor l q h := by
  have hpos : 0 < l.length := List.length_pos.2 hne
  have mono : ∀ x y, x ≤ y → y < l.length →
      (fun i => decide (l.getD i 0 ≥ q)) x = true → (fun i => decide (l.getD i 0 ≥ q)) y = true := by
    intro x y hxy hy hx
    have := sorted_getD_le l hs x y hxy hy
    simp only [ge_iff_le, decide_eq_true_eq] at hx ⊢
    omega
  obtain ⟨hle, hlo, hhi⟩ := Search_spec _ l.length mono
  by_cases hr : Search l.length (fun i => decide (l.getD i 0 ≥ q)) = l.length
  · have hw : wrapIndex l q = 0 := by simp only [wrapIndex, hr, if_true]
    rw [hw]
    refine ⟨hpos, l.getD 0 0, ?_, ?_⟩
    · rw [List.getD_eq_getElem l 0 hpos]
      exact List.getElem?_eq_getElem hpos
    · have hall : ∀ x ∈ l, x < q := by
        intro x hx
        obtain ⟨i, hi, rfl⟩ := List.getElem_of_mem hx
        have := hlo i (by omega)
        rw [List.getD_eq_getElem l 0 hi] at this
        simpa using this
      refine ⟨?_, Or.inr ⟨hall, ?_⟩⟩
      · rw [List.getD_eq_getElem l 0 hpos]
        exact List.getElem_mem _
      · intro x hx
        obtain ⟨i, hi, rfl⟩ := List.getElem_of_mem hx
        have := sorted_getD_le l hs 0 i (Nat.zero_le _) hi
        rwa [List.getD_eq_getElem l 0 hi] at this
  · have hw : wrapIndex l q = Search l.length (fun i => decide (l.getD i 0 ≥ q)) := by
      simp only [wrapIndex, hr, if_false]
    have hlt : wrapIndex l q < l.length := by
      rw [hw]
      omega
    refine ⟨hlt, l.getD (wrapIndex l q) 0, ?_, ?_⟩
    · rw [List.getD_eq_getElem l 0 hlt]
      exact List.getElem?_eq_getElem hlt
    · have hq : q ≤ l.getD (wrapIndex l q) 0 := by
        have := hhi (wrapIndex l q) (by rw [hw]) hlt
        simpa using this
      refine ⟨?_, Or.inl ⟨hq, ?_⟩⟩
      · rw [List.getD_eq_getElem l 0 hlt]
        exact List.getElem_mem _
      · intro x hx hqx
        obtain ⟨i, hi, rfl⟩ := List.getElem_of_mem hx
        by_cases hiw : i < wrapIndex l q
        · have := hlo i (by rw [← hw]; exact hiw)
          rw [List.getD_eq_getElem l 0 hi] at this
          simp only [ge_iff_le, decide_eq_false_iff_not, not_le] at this
          omega
        · have := sorted_getD_le l hs (wrapIndex l q) i (by omega) hi
          rwa [List.getD_eq_getElem l 0 hi] at this

/-! ## Facts about the ring operations -/

theorem addNodeLoop_replicas (node : GoString) (is : List Nat) (c : Consistent) :
    (addNodeLoop node is c).replicas = c.replicas := by
  induction is generalizing c with
  | nil => rfl
  | cons i rest ih => simp [addNodeLoop, ih]

theorem addNodeLoop_sortedHashes (node : GoString) (is : List Nat) (c : Consistent) :
    (addNodeLoop node is c).sortedHashes = c.sortedHashes ++ is.map (virtualHash node) := by
  induction is generalizing c with
  | nil => simp [addNodeLoop]
  | cons i rest ih => simp [addNodeLoop, ih]

theorem addNodeLoop_lookup (node : GoString) (is : List Nat) (c : Consistent) (h : Nat) :
    mapLookup (addNodeLoop node is c).nodes h =
      if h ∈ is.map (virtualHash node) then some node else mapLookup c.nodes h := by
  induction is generalizing c with
  | nil => simp [addNodeLoop]
  | cons i rest ih =>
    simp only [addNodeLoop, ih, mapLookup_mapSet, List.map_cons, List.mem_cons]
    by_cases h1 : h ∈ rest.map (virtualHash node)
    · simp [h1]
    · by_cases h2 : virtualHash node i = h
      · simp [h1, h2]
      · have h3 : ¬ h = virtualHash node i := fun e => h2 e.symm
        simp [h1, h2, h3]

theorem addNodeLoop_nodup (node : GoString) (is : List Nat) (c : Consistent)
    (hnd : (mapKeys c.nodes).Nodup) : (mapKeys (addNodeLoop node is c).nodes).Nodup := by
  induction is generalizing c with
  | nil => simpa [addNodeLoop] using hnd
  | cons i rest ih =>
    simp only [addNodeLoop]
    exact ih _ (mapKeys_mapSet_nodup _ _ _ hnd)

theorem addNodeLoop_eq_self (node : GoString) (is : List Nat) (c : Consistent)
    (h : ∀ i ∈ is, mapLookup c.nodes (virtualHash node i) = some node) :
    (addNodeLoop node is c).nodes = c.nodes := by
  induction is generalizing c with
  | nil => rfl
  | cons i rest ih =>
    have h0 := h i (List.mem_cons_self _ _)
    simp only [addNodeLoop]
    rw [ih]
    · exact mapSet_eq_self _ _ _ h0
    · intro j hj
      simp only [mapSet_eq_self _ _ _ h0]
      exact h j (List.mem_cons_of_mem _ hj)

theorem AddNode_replicas (c : Consistent) (id : GoString) :
    (AddNode c id).replicas = c.replicas := by
  simp [AddNode, addNode, addNodeLoop_replicas]

theorem AddNode_sortedHashes (c : Consistent) (id : GoString) :
    (AddNode c id).sortedHashes = sortSlice (c.sortedHashes ++ vhashes c.replicas id) := by
  simp [AddNode, addNode, addNodeLoop_sortedHashes, vhashes]

theorem AddNode_lookup (c : Consistent) (id : GoString) (h : Nat) :
    mapLookup (AddNode c id).nodes h =
      if h ∈ vhashes c.replicas id then some id else mapLookup c.nodes h := by
  simp only [AddNode, addNode, vhashes]
  exact addNodeLoop_lookup id _ c h

theorem AddNode_nodup (c : Consistent) (id : GoString) (hnd : (mapKeys c.nodes).Nodup) :
    (mapKeys (AddNode c id).nodes).Nodup := by
  simp only [AddNode, addNode]
  exact addNodeLoop_nodup id _ c hnd

theorem mem_mapKeys_AddNode (c : Consistent) (id : GoString) (h : Nat) :
    h ∈ mapKeys (AddNode c id).nodes ↔ h ∈ vhashes c.replicas id ∨ h ∈ mapKeys c.nodes := by
  have h1 := mapLookup_eq_none_iff (AddNode c id).nodes h
  have h2 := mapLookup_eq_none_iff c.nodes h
  rw [AddNode_lookup] at h1
  by_cases hv : h ∈ vhashes c.replicas id
  · simp only [hv, if_true] at h1
    simp only [hv, true_or, iff_true]
    by_contra hc
    exact absurd (h1.2 hc) (by simp)
  · simp only [hv, if_false] at h1
    simp only [hv, false_or]
    constructor
    · intro hm
      by_contra hc
      exact (h1.1 (h2.2 hc)) hm
    · intro hm
      by_contra hc
      exact (h2.1 (h1.2 hc)) hm

theorem removeLoop_eq_filter (node : GoString) (is : List Nat) (m : List (Nat × GoString)) :
    removeLoop node is m =
      m.filter (fun e => !decide (e.1 ∈ is.map (virtualHash node))) := by
  induction is generalizing m with
  | nil => simp [removeLoop]
  | cons i rest ih =>
    simp only [removeLoop, ih, mapDelete, List.filter_filter]
    apply List.filter_congr
    intro e _
    by_cases h1 : e.1 = virtualHash node i <;> by_cases h2 : e.1 ∈ rest.map (virtualHash node) <;>
      simp [h1, h2]

theorem RemoveNode_nodes (c : Consistent) (id : GoString) :
    (RemoveNode c id).nodes =
      c.nodes.filter (fun e => !decide (e.1 ∈ vhashes c.replicas id)) := by
  simp only [RemoveNode, vhashes]
  exact removeLoop_eq_filter id _ c.nodes

theorem RemoveNode_sortedHashes (c : Consistent) (id : GoString) :
    (RemoveNode c id).sortedHashes = sortSlice (mapKeys (RemoveNode c id).nodes) := by
  simp [RemoveNode]

theorem RemoveNode_replicas (c : Consistent) (id : GoString) :
    (RemoveNode c id).replicas = c.replicas := by
  simp [RemoveNode]

theorem mem_RemoveNode_nodes (c : Consistent) (id : GoString) (e : Nat × GoString) :
    e ∈ (RemoveNode c id).nodes ↔ e ∈ c.nodes ∧ e.1 ∉ vhashes c.replicas id := by
  rw [RemoveNode_nodes]
  simp [List.mem_filter]

theorem RingInv_NewConsistent (r : Int) : RingInv (NewConsistent r) := by
  constructor <;> simp [NewConsistent, mapKeys]

theorem RingInv_AddNode (c : Consistent) (id : GoString) (hc : RingInv c) :
    RingInv (AddNode c id) := by
  refine ⟨AddNode_nodup c id hc.nodupKeys, ?_, ?_, ?_⟩
  · rw [AddNode_sortedHashes]
    exact sorted_sortSlice _
  · intro h
    rw [AddNode_sortedHashes, mem_sortSlice, mem_mapKeys_AddNode, List.mem_append, hc.hashes_iff]
    exact or_comm
  · intro h m hm
    have hl := mapLookup_of_mem _ h m (AddNode_nodup c id hc.nodupKeys) hm
    rw [AddNode_lookup] at hl
    rw [AddNode_replicas]
    by_cases hv : h ∈ vhashes c.replicas id
    · simp only [hv, if_true, Option.some.injEq] at hl
      rw [← hl]
      exact hv
    · simp only [hv, if_false] at hl
      exact hc.owned h m (mem_of_mapLookup _ _ _ hl)

theorem RingInv_RemoveNode (c : Consistent) (id : GoString) (hc : RingInv c) :
    RingInv (RemoveNode c id) := by
  refine ⟨?_, ?_, ?_, ?_⟩
  · rw [RemoveNode_nodes]
    exact hc.nodupKeys.sublist ((List.filter_sublist c.nodes).map Prod.fst)
  · rw [RemoveNode_sortedHashes]
    exact sorted_sortSlice _
  · intro h
    rw [RemoveNode_sortedHashes, mem_sortSlice]
  · intro h m hm
    rw [RemoveNode_replicas]
    exact hc.owned h m ((mem_RemoveNode_nodes c id (h, m)).1 hm).1

theorem RingReachable_inv (r : Int) (c : Consistent) (hc : RingReachable r c) :
    RingInv c ∧ c.replicas = r := by
  induction hc with
  | init => exact ⟨RingInv_NewConsistent r, rfl⟩
  | add c id _ ih => exact ⟨RingInv_AddNode c id ih.1, by rw [AddNode_replicas]; exact ih.2⟩
  | remove c id _ ih =>
    exact ⟨RingInv_RemoveNode c id ih.1, by rw [RemoveNode_replicas]; exact ih.2⟩

theorem GetNode_nil (c : Consistent) (key : GoString) (h : c.nodes = []) :
    GetNode c key = some [] := by
  simp [GetNode, h]

theorem GetNode_of_inv (c : Consistent) (key : GoString) (hc : RingInv c)
    (hne : c.nodes ≠ []) :
    ringIndex c key < c.sortedHashes.length ∧
      ∃ h m, c.sortedHashes[ringIndex c key]? = some h ∧
        IsSuccessor (mapKeys c.nodes) (ChecksumIEEE key) h ∧
        mapLookup c.nodes h = some m ∧ GetNode c key = some m := by
  have hsne : c.sortedHashes ≠ [] := by
    obtain ⟨e, t, he⟩ := List.exists_cons_of_ne_nil hne
    have : e.1 ∈ c.sortedHashes := by
      rw [hc.hashes_iff, he]
      simp [mapKeys]
    exact List.ne_nil_of_mem this
  obtain ⟨hlt, h, hget, hsucc⟩ := wrapIndex_spec c.sortedHashes (ChecksumIEEE key) hc.sorted hsne
  have hsucc' := IsSuccessor_congr _ (mapKeys c.nodes) _ _ hc.hashes_iff hsucc
  have hlook : mapLookup c.nodes h ≠ none := by
    rw [Ne, mapLookup_eq_none_iff]
    exact fun hn => hn hsucc'.1
  obtain ⟨m, hm⟩ := Option.ne_none_iff_exists'.1 hlook
  have hidx : ringIndex c key = wrapIndex c.sortedHashes (ChecksumIEEE key) := rfl
  refine ⟨by rw [hidx]; exact hlt, h, m, by rw [hidx]; exact hget, hsucc', hm, ?_⟩
  have hlen : ¬ c.nodes.length = 0 := by
    rw [List.length_eq_zero]
    exact hne
  simp only [GetNode, hlen, if_false, hidx, hget, hm, Option.getD_some]

theorem GetNode_eq_lookup (c : Consistent) (key : GoString) (hc : RingInv c) (h : Nat)
    (hs : IsSuccessor (mapKeys c.nodes) (ChecksumIEEE key) h) :
    GetNode c key = mapLookup c.nodes h := by
  have hne : c.nodes ≠ [] := by
    intro hnil
    have := hs.1
    simp [hnil, mapKeys] at this
  obtain ⟨_, h', m, _, hs', hm, hg⟩ := GetNode_of_inv c key hc hne
  have := IsSuccessor_unique _ _ _ _ hs hs'
  rw [hg, this, hm]

theorem foldl_mapSet_mem {E : Type} (g : E → GoString) (l : List E)
    (acc : List (GoString × Bool)) (k : GoString) :
    k ∈ mapKeys (l.foldl (fun m e => mapSet m (g e) true) acc) ↔
      k ∈ mapKeys acc ∨ ∃ e ∈ l, g e = k := by
  induction l generalizing acc with
  | nil => simp
  | cons e t ih =>
    simp only [List.foldl_cons, ih, mem_mapKeys_mapSet, List.mem_cons, exists_eq_or_imp]
    constructor
    · rintro ((h | h) | h)
      · exact Or.inr (Or.inl h.symm)
      · exact Or.inl h
      · exact Or.inr (Or.inr h)
    · rintro (h | h | h)
      · exact Or.inl (Or.inr h)
      · exact Or.inl (Or.inl h.symm)
      · exact Or.inr h

theorem foldl_mapSet_nodup {E : Type} (g : E → GoString) (l : List E)
    (acc : List (GoString × Bool)) (hnd : (mapKeys acc).Nodup) :
    (mapKeys (l.foldl (fun m e => mapSet m (g e) true) acc)).Nodup := by
  induction l generalizing acc with
  | nil => simpa using hnd
  | cons e t ih =>
    simp only [List.foldl_cons]
    exact ih _ (mapKeys_mapSet_nodup _ _ _ hnd)

theorem mem_GetNodes (c : Consistent) (m : GoString) :
    m ∈ GetNodes c ↔ ∃ h, (h, m) ∈ c.nodes := by
  simp only [GetNodes]
  rw [foldl_mapSet_mem (fun e : Nat × GoString => e.2) c.nodes [] m]
  simp [mapKeys]

theorem GetNodes_nodup (c : Consistent) : (GetNodes c).Nodup := by
  simp only [GetNodes]
  exact foldl_mapSet_nodup (fun e : Nat × GoString => e.2) c.nodes [] (by simp [mapKeys])

theorem mem_GetNodes_AddNode (c : Consistent) (id : GoString) (hc : RingInv c) (m : GoString) :
    m ∈ GetNodes (AddNode c id) ↔
      (m = id ∧ vhashes c.replicas id ≠ []) ∨
        ∃ h, (h, m) ∈ c.nodes ∧ h ∉ vhashes c.replicas id := by
  have hnd := AddNode_nodup c id hc.nodupKeys
  rw [mem_GetNodes]
  constructor
  · rintro ⟨h, hm⟩
    have hl := mapLookup_of_mem _ h m hnd hm
    rw [AddNode_lookup] at hl
    by_cases hv : h ∈ vhashes c.replicas id
    · simp only [hv, if_true, Option.some.injEq] at hl
      exact Or.inl ⟨hl.symm, List.ne_nil_of_mem hv⟩
    · simp only [hv, if_false] at hl
      exact Or.inr ⟨h, mem_of_mapLookup _ _ _ hl, hv⟩
  · rintro (⟨hm, hne⟩ | ⟨h, hm, hv⟩)
    · obtain ⟨x, t, hx⟩ := List.exists_cons_of_ne_nil hne
      have hxv : x ∈ vhashes c.replicas id := by simp [hx]
      refine ⟨x, mem_of_mapLookup _ _ _ ?_⟩
      rw [AddNode_lookup, hm]
      simp only [hxv, if_true]
    · refine ⟨h, mem_of_mapLookup _ _ _ ?_⟩
      rw [AddNode_lookup]
      simp only [hv, if_false]
      exact mapLookup_of_mem _ _ _ hc.nodupKeys hm

theorem vhashes_ne_nil (r : Int) (id : GoString) (hr : 1 ≤ r) : vhashes r id ≠ [] := by
  have h : r.toNat ≠ 0 := by omega
  simp [vhashes, h]

theorem mem_AddNode_nodes_iff (c : Consistent) (id : GoString) (hc : RingInv c)
    (h : Nat) (m : GoString) :
    (h, m) ∈ (AddNode c id).nodes ↔
      (h ∈ vhashes c.replicas id ∧ m = id) ∨ ((h, m) ∈ c.nodes ∧ h ∉ vhashes c.replicas id) := by
  have hnd := AddNode_nodup c id hc.nodupKeys
  constructor
  · intro hm
    have hl := mapLookup_of_mem _ h m hnd hm
    rw [AddNode_lookup] at hl
    by_cases hv : h ∈ vhashes c.replicas id
    · simp only [hv, if_true, Option.some.injEq] at hl
      exact Or.inl ⟨hv, hl.symm⟩
    · simp only [hv, if_false] at hl
      exact Or.inr ⟨mem_of_mapLookup _ _ _ hl, hv⟩
  · rintro (⟨hv, hm⟩ | ⟨hm, hv⟩)
    · apply mem_of_mapLookup
      rw [AddNode_lookup, hm]
      simp only [hv, if_true]
    · apply mem_of_mapLookup
      rw [AddNode_lookup]
      simp only [hv, if_false]
      exact mapLookup_of_mem _ _ _ hc.nodupKeys hm

theorem mem_GetNodes_foldl (r : Int) (ids : List GoString) :
    ∀ c : Consistent, RingInv c → c.replicas = r →
      ∀ m, m ∈ GetNodes (ids.foldl AddNode c) ↔
        (∃ h, (h, m) ∈ c.nodes ∧ ∀ b ∈ ids, h ∉ vhashes r b) ∨ SurvivesIn r m ids := by
  induction ids with
  | nil =>
    intro c _ _ m
    simp [mem_GetNodes, SurvivesIn]
  | cons id rest ih =>
    intro c hc hrep m
    simp only [List.foldl_cons]
    rw [ih (AddNode c id) (RingInv_AddNode c id hc) ((AddNode_replicas c id).trans hrep) m]
    simp only [mem_AddNode_nodes_iff c id hc, hrep, SurvivesIn, KeepsSlot, List.mem_cons,
      forall_eq_or_imp]
    constructor
    · rintro (⟨h, (⟨hv, hm⟩ | ⟨hm, hv⟩), hall⟩ | hs)
      · rw [hm]
        exact Or.inr (Or.inl ⟨rfl, h, hv, hall⟩)
      · exact Or.inl ⟨h, hm, hv, hall⟩
      · exact Or.inr (Or.inr hs)
    · rintro (⟨h, hm, hv, hall⟩ | (⟨hm, h, hv, hall⟩ | hs))
      · exact Or.inl ⟨h, Or.inr ⟨hm, hv⟩, hall⟩
      · exact Or.inl ⟨h, Or.inl ⟨hv, hm⟩, hall⟩
      · exact Or.inr hs

theorem mem_of_SurvivesIn (r : Int) (m : GoString) (ids : List GoString)
    (h : SurvivesIn r m ids) : m ∈ ids := by
  induction ids with
  | nil => exact absurd h (by simp [SurvivesIn])
  | cons id rest ih =>
    rcases h with ⟨hm, _⟩ | h
    · rw [hm]
      exact List.mem_cons_self _ _
    · exact List.mem_cons_of_mem _ (ih h)

theorem AllKeepSlot_iff (r : Int) (ids : List GoString) (hnd : ids.Nodup) :
    AllKeepSlot r ids ↔ ∀ m ∈ ids, SurvivesIn r m ids := by
  induction ids with
  | nil => simp [AllKeepSlot]
  | cons id rest ih =>
    obtain ⟨hid, hrest⟩ := List.nodup_cons.1 hnd
    simp only [AllKeepSlot, SurvivesIn, List.mem_cons, forall_eq_or_imp, ih hrest]
    constructor
    · rintro ⟨hk, hall⟩
      exact ⟨Or.inl ⟨trivial, hk⟩, fun m hm => Or.inr (hall m hm)⟩
    · rintro ⟨h1, hall⟩
      refine ⟨?_, ?_⟩
      · rcases h1 with ⟨_, hk⟩ | hs
        · exact hk
        · exact absurd (mem_of_SurvivesIn r id rest hs) hid
      · intro m hm
        rcases hall m hm with ⟨he, _⟩ | hs
        · rw [he] at hm
          exact absurd hm hid
        · exact hs

theorem length_eq_iff_of_subset (l ids : List GoString) (hl : l.Nodup) (hids : ids.Nodup)
    (hsub : ∀ m ∈ l, m ∈ ids) : l.length = ids.length ↔ ∀ m ∈ ids, m ∈ l := by
  constructor
  · intro hlen m hm
    have hp : l.Perm ids :=
      (List.subperm_of_subset hl hsub).perm_of_length_le (le_of_eq hlen.symm)
    exact hp.mem_iff.2 hm
  · intro hall
    exact ((List.perm_ext_iff_of_nodup hl hids).2
      (fun m => ⟨hsub m, hall m⟩)).length_eq

/-! ## The ring: lookup, removal, insertion -/

/-- Claim C1.  On every ring reachable from `NewConsistent r` by `AddNode` and
`RemoveNode`, and for every key: `GetNode` returns the empty string when the
node map has no entry; otherwise the index it reads is inside `sortedHashes`,
the hash `h` found there is a key of the node map that is the least one at or
above `crc32(key)`, or the least one of all when none is at or above it, and the
result is the member stored under `h`.  `GetNode` is a function of the ring
state and the key, so equal arguments give equal results. -/
theorem GetNode_successor (r : Int) (c : Consistent) (hc : RingReachable r c)
    (key : GoString) :
    (c.nodes.length = 0 → GetNode c key = some []) ∧
    (c.nodes.length ≠ 0 →
      ringIndex c key < c.sortedHashes.length ∧
      ∃ h m, c.sortedHashes[ringIndex c key]? = some h ∧
        mapLookup c.nodes h = some m ∧ GetNode c key = some m ∧
        h ∈ mapKeys c.nodes ∧
        ((ChecksumIEEE key ≤ h ∧ ∀ x ∈ mapKeys c.nodes, ChecksumIEEE key ≤ x → h ≤ x) ∨
          ((∀ x ∈ mapKeys c.nodes, x < ChecksumIEEE key) ∧ ∀ x ∈ mapKeys c.nodes, h ≤ x))) := by
  constructor
  · intro h0
    exact GetNode_nil c key (List.length_eq_zero.1 h0)
  · intro hne
    have hne' : c.nodes ≠ [] := fun h => hne (List.length_eq_zero.2 h)
    obtain ⟨hlt, h, m, hget, hsucc, hm, hg⟩ :=
      GetNode_of_inv c key (RingReachable_inv r c hc).1 hne'
    exact ⟨hlt, h, m, hget, hm, hg, hsucc.1, hsucc.2⟩

/-- Claim C2, amended.  On every ring reachable by `AddNode` and `RemoveNode` and
for every non-empty `id`: after `RemoveNode(id)` the list `GetNodes()` does not
contain `id`, no key resolves to `id`, and whenever `GetNodes()` is non-empty
every key resolves to one of the members it lists; that result is a non-empty
string whenever the empty string is not one of the listed members. -/
theorem RemoveNode_excludes (r : Int) (c : Consistent) (hc : RingReachable r c)
    (id : GoString) (hid : id ≠ []) :
    id ∉ GetNodes (RemoveNode c id) ∧
    (∀ key, GetNode (RemoveNode c id) key ≠ some id) ∧
    (GetNodes (RemoveNode c id) ≠ [] →
      ∀ key, ∃ m, GetNode (RemoveNode c id) key = some m ∧ m ∈ GetNodes (RemoveNode c id) ∧
        ([] ∉ GetNodes (RemoveNode c id) → m ≠ [])) := by
  have hinv := (RingReachable_inv r c hc).1
  have hinv' := RingInv_RemoveNode c id hinv
  have hnot : id ∉ GetNodes (RemoveNode c id) := by
    rw [mem_GetNodes]
    rintro ⟨h, hm⟩
    obtain ⟨hm1, hm2⟩ := (mem_RemoveNode_nodes c id (h, id)).1 hm
    exact hm2 (hinv.owned h id hm1)
  have hres : ∀ key, (RemoveNode c id).nodes ≠ [] →
      ∃ m, GetNode (RemoveNode c id) key = some m ∧ m ∈ GetNodes (RemoveNode c id) := by
    intro key hne
    obtain ⟨_, h, m, _, _, hm, hg⟩ := GetNode_of_inv _ key hinv' hne
    exact ⟨m, hg, (mem_GetNodes _ m).2 ⟨h, mem_of_mapLookup _ _ _ hm⟩⟩
  refine ⟨hnot, ?_, ?_⟩
  · intro key hk
    by_cases hne : (RemoveNode c id).nodes = []
    · rw [GetNode_nil _ key hne] at hk
      exact hid (Option.some.inj hk).symm
    · obtain ⟨m, hg, hm⟩ := hres key hne
      rw [hg] at hk
      rw [Option.some.inj hk] at hm
      exact hnot hm
  · intro hmem key
    have hne : (RemoveNode c id).nodes ≠ [] := by
      intro hnil
      apply hmem
      simp [GetNodes, hnil, mapKeys]
    obtain ⟨m, hg, hm⟩ := hres key hne
    refine ⟨m, hg, hm, ?_⟩
    intro hempty hm0
    rw [hm0] at hm
    exact hempty hm

/-- Claim C10.  On every ring reachable by `AddNode` and `RemoveNode`, for every
`id` and every key, the member `GetNode(key)` returns after `AddNode(id)` is
`id` or the one it returned before the call: a join never moves a key between
two members that were already present. -/
theorem AddNode_minimal_remap (r : Int) (c : Consistent) (hc : RingReachable r c)
    (id key : GoString) :
    GetNode (AddNode c id) key = some id ∨ GetNode (AddNode c id) key = GetNode c key := by
  have hinv := (RingReachable_inv r c hc).1
  have hinv' := RingInv_AddNode c id hinv
  by_cases hne : (AddNode c id).nodes = []
  · right
    have hnil : c.nodes = [] := by
      cases hcn : c.nodes with
      | nil => rfl
      | cons e t =>
        have : e.1 ∈ mapKeys (AddNode c id).nodes := by
          rw [mem_mapKeys_AddNode]
          right
          simp [hcn, mapKeys]
        simp [hne, mapKeys] at this
    rw [GetNode_nil _ key hne, GetNode_nil _ key hnil]
  · obtain ⟨_, h, m, _, hsucc, hm, hg⟩ := GetNode_of_inv _ key hinv' hne
    rw [AddNode_lookup] at hm
    by_cases hv : h ∈ vhashes c.replicas id
    · left
      simp only [hv, if_true] at hm
      rw [hg, hm]
    · right
      simp only [hv, if_false] at hm
      have hmem : h ∈ mapKeys c.nodes := mem_mapKeys_of_mem _ _ _ (mem_of_mapLookup _ _ _ hm)
      have hsucc0 := IsSuccessor_subset (mapKeys c.nodes) _ _ h
        (fun x hx => (mem_mapKeys_AddNode c id x).2 (Or.inr hx)) hmem hsucc
      rw [hg, GetNode_eq_lookup c key hinv h hsucc0, hm]

/-! ## Facts about the registry -/

theorem RegisterNode_consistent (s : Server) (req : RegisterRequest) :
    (RegisterNode s req).1.consistent = AddNode s.consistent req.NodeId := rfl

theorem Heartbeat_consistent (s : Server) (req : HeartbeatRequest) :
    (Heartbeat s req).1.consistent = s.consistent := by
  unfold Heartbeat
  cases mapLookup s.nodes req.NodeId <;> rfl

theorem ServerInv_NewServer : ServerInv NewServer := by
  refine ⟨RingReachable.init, ?_, ?_, ?_⟩ <;> simp [NewServer, mapKeys]

theorem ServerInv_RegisterNode (s : Server) (req : RegisterRequest) (hs : ServerInv s) :
    ServerInv (RegisterNode s req).1 := by
  have hrep := (RingReachable_inv 100 _ hs.ring).2
  have hnd : (mapKeys (RegisterNode s req).1.nodes).Nodup :=
    mapKeys_mapSet_nodup _ _ _ hs.nodupKeys
  refine ⟨RingReachable.add _ _ hs.ring, hnd, ?_, ?_⟩
  · intro k n hkn
    have hl := mapLookup_of_mem _ k n hnd hkn
    simp only [RegisterNode, mapLookup_mapSet] at hl
    by_cases hk : req.NodeId = k
    · simp only [hk, if_true, Option.some.injEq] at hl
      rw [← hl]
    · simp only [hk, if_false] at hl
      exact hs.ids k n (mem_of_mapLookup _ _ _ hl)
  · intro k hk h hh
    rw [RegisterNode_consistent, mem_mapKeys_AddNode, hrep]
    simp only [RegisterNode, mem_mapKeys_mapSet] at hk
    rcases hk with hk | hk
    · left
      rw [← hk]
      exact hh
    · right
      exact hs.inRing k hk h hh

theorem ServerInv_Heartbeat (s : Server) (req : HeartbeatRequest) (hs : ServerInv s) :
    ServerInv (Heartbeat s req).1 := by
  unfold Heartbeat
  cases hl : mapLookup s.nodes req.NodeId with
  | none => exact hs
  | some node =>
    have hid : node.NodeId = req.NodeId := hs.ids _ _ (mem_of_mapLookup _ _ _ hl)
    have hmem : req.NodeId ∈ mapKeys s.nodes := mem_mapKeys_of_mem _ _ _ (mem_of_mapLookup _ _ _ hl)
    have hnd : (mapKeys (mapSet s.nodes req.NodeId
        { node with Status := str "active", AvailableSpace := req.AvailableSpace })).Nodup :=
      mapKeys_mapSet_nodup _ _ _ hs.nodupKeys
    refine ⟨hs.ring, hnd, ?_, ?_⟩
    · intro k n hkn
      have hl2 := mapLookup_of_mem _ k n hnd hkn
      simp only [mapLookup_mapSet] at hl2
      by_cases hk : req.NodeId = k
      · simp only [hk, if_true, Option.some.injEq] at hl2
        rw [← hl2, ← hk]
        exact hid
      · simp only [hk, if_false] at hl2
        exact hs.ids k n (mem_of_mapLookup _ _ _ hl2)
    · intro k hk h hh
      simp only [mem_mapKeys_mapSet] at hk
      rcases hk with hk | hk
      · rw [hk] at hh
        exact hs.inRing _ hmem h hh
      · exact hs.inRing k hk h hh

theorem ServerReachable_inv (s : Server) (hs : ServerReachable s) : ServerInv s := by
  induction hs with
  | init => exact ServerInv_NewServer
  | register s req _ ih => exact ServerInv_RegisterNode s req ih
  | heartbeat s req _ ih => exact ServerInv_Heartbeat s req ih

theorem AddNode_again_nodes (c : Consistent) (id : GoString)
    (h : ∀ x ∈ vhashes c.replicas id, mapLookup c.nodes x = some id) :
    (AddNode c id).nodes = c.nodes := by
  simp only [AddNode, addNode]
  apply addNodeLoop_eq_self
  intro i hi
  exact h _ (List.mem_map_of_mem _ hi)

theorem GetNode_congr (c c' : Consistent) (hc : RingInv c) (hc' : RingInv c')
    (hn : c'.nodes = c.nodes) (key : GoString) : GetNode c' key = GetNode c key := by
  by_cases hne : c.nodes = []
  · rw [GetNode_nil c key hne, GetNode_nil c' key (hn.trans hne)]
  · obtain ⟨_, h, m, _, hsucc, hm, hg⟩ := GetNode_of_inv c key hc hne
    rw [← hn] at hsucc
    rw [GetNode_eq_lookup c' key hc' h hsucc, hn, hg, hm]

theorem AddNode_sortedHashes_length (c : Consistent) (id : GoString) :
    (AddNode c id).sortedHashes.length = c.sortedHashes.length + c.replicas.toNat := by
  rw [AddNode_sortedHashes, length_sortSlice]
  simp [vhashes]

theorem GetNode_isSome (c : Consistent) (hc : RingInv c) (key : GoString) :
    ∃ m, GetNode c key = some m := by
  by_cases hne : c.nodes = []
  · exact ⟨[], GetNode_nil c key hne⟩
  · obtain ⟨_, _, m, _, _, _, hg⟩ := GetNode_of_inv c key hc hne
    exact ⟨m, hg⟩

theorem rangeFirst_mem {K V : Type} (m : List (K × V)) (pos : Nat) (e : K × V)
    (h : rangeFirst m pos = some e) : e ∈ m := by
  unfold rangeFirst at h
  exact List.getElem?_mem h

theorem rangeFirst_some {K V : Type} (m : List (K × V)) (pos : Nat) (hne : m ≠ []) :
    ∃ e, rangeFirst m pos = some e := by
  have hpos : 0 < m.length := List.length_pos.2 hne
  have hlt : pos % m.length < m.length := Nat.mod_lt _ hpos
  exact ⟨m[pos % m.length], by unfold rangeFirst; exact List.getElem?_eq_getElem hlt⟩

theorem uploadLoop_spec (s : Server) (hs : ServerInv s) (fileId : GoString)
    (order : Nat → Nat) (is : List Nat) (acc : List NodeInfo) :
    ∃ out, uploadLoop s fileId order is acc = some out ∧
      (s.nodes ≠ [] → out.length = acc.length + is.length) ∧
      (s.nodes = [] → out = acc) ∧
      (∀ n ∈ out, n ∈ acc ∨ n ∈ ListNodes s) := by
  have hinv := (RingReachable_inv 100 _ hs.ring).1
  induction is generalizing acc with
  | nil => exact ⟨acc, rfl, fun _ => by simp, fun _ => rfl, fun n hn => Or.inl hn⟩
  | cons i rest ih =>
    obtain ⟨nodeId, hg⟩ := GetNode_isSome s.consistent hinv (chunkKey fileId i)
    cases hl : mapLookup s.nodes nodeId with
    | some node =>
      obtain ⟨out, ho, h1, h2, h3⟩ := ih (acc ++ [node])
      have hmem : node ∈ ListNodes s :=
        List.mem_map_of_mem Prod.snd (mem_of_mapLookup _ _ _ hl)
      refine ⟨out, by simp only [uploadLoop, hg, hl, ho], ?_, ?_, ?_⟩
      · intro hne
        rw [h1 hne]
        simp
        omega
      · intro hnil
        rw [hnil] at hl
        simp [mapLookup] at hl
      · intro n hn
        rcases h3 n hn with h | h
        · rcases List.mem_append.1 h with h | h
          · exact Or.inl h
          · rw [List.mem_singleton.1 h]
            exact Or.inr hmem
        · exact Or.inr h
    | none =>
      cases hr : rangeFirst s.nodes (order i) with
      | some e =>
        obtain ⟨out, ho, h1, h2, h3⟩ := ih (acc ++ [e.2])
        have hmem : e.2 ∈ ListNodes s :=
          List.mem_map_of_mem Prod.snd (rangeFirst_mem _ _ _ hr)
        refine ⟨out, by simp only [uploadLoop, hg, hl, hr, ho], ?_, ?_, ?_⟩
        · intro hne
          rw [h1 hne]
          simp
          omega
        · intro hnil
          have := rangeFirst_mem _ _ _ hr
          rw [hnil] at this
          simp at this
        · intro n hn
          rcases h3 n hn with h | h
          · rcases List.mem_append.1 h with h | h
            · exact Or.inl h
            · rw [List.mem_singleton.1 h]
              exact Or.inr hmem
          · exact Or.inr h
      | none =>
        obtain ⟨out, ho, h1, h2, h3⟩ := ih acc
        refine ⟨out, by simp only [uploadLoop, hg, hl, hr, ho], ?_, h2, h3⟩
        intro hne
        obtain ⟨e, he⟩ := rangeFirst_some s.nodes (order i) hne
        rw [he] at hr
        simp at hr

theorem length_eq_of_mapKeys_iff (m m' : List (Nat × GoString))
    (hnd : (mapKeys m).Nodup) (hnd' : (mapKeys m').Nodup)
    (h : ∀ x, x ∈ mapKeys m' ↔ x ∈ mapKeys m) : m'.length = m.length := by
  have hp : (mapKeys m').Perm (mapKeys m) := (List.perm_ext_iff_of_nodup hnd' hnd).2 h
  simpa [mapKeys] using hp.length_eq

/-! ## The registry: registration, heartbeat, placement -/

/-- Claim C4.  On every registry reachable from `NewServer` by `RegisterNode`
and `Heartbeat`, and for every id, addresses and capacities: after two
consecutive `RegisterNode` calls with the same id, the node map of the ring,
the list `GetNodes()` (and its length) and the result of `GetNode(key)` for
every key are what they were after the first of the two calls. -/
theorem RegisterNode_twice (s : Server) (hs : ServerReachable s) (id addr1 addr2 : GoString)
    (cap1 cap2 : Int) :
    let s1 := (RegisterNode s { NodeId := id, Address := addr1, AvailableSpace := cap1 }).1
    let s2 := (RegisterNode s1 { NodeId := id, Address := addr2, AvailableSpace := cap2 }).1
    s2.consistent.nodes = s1.consistent.nodes ∧
    GetNodes s2.consistent = GetNodes s1.consistent ∧
    (GetNodes s2.consistent).length = (GetNodes s1.consistent).length ∧
    ∀ key, GetNode s2.consistent key = GetNode s1.consistent key := by
  intro s1 s2
  have hinv1 : RingInv s1.consistent :=
    (RingReachable_inv 100 _ (ServerReachable_inv _ (ServerReachable.register s _ hs)).ring).1
  have hinv2 : RingInv s2.consistent := RingInv_AddNode _ id hinv1
  have hnodes : s2.consistent.nodes = s1.consistent.nodes := by
    apply AddNode_again_nodes
    intro x hx
    have hrep : s1.consistent.replicas = s.consistent.replicas := AddNode_replicas _ _
    rw [hrep] at hx
    have hl := AddNode_lookup s.consistent id x
    simp only [hx, if_true] at hl
    exact hl
  have hget : GetNodes s2.consistent = GetNodes s1.consistent := by
    simp only [GetNodes, hnodes]
  exact ⟨hnodes, hget, by rw [hget], fun key => GetNode_congr _ _ hinv1 hinv2 hnodes key⟩

/-- Claim C8.  For every registry state and every request whose id is not a key of
the membership table, `Heartbeat` returns `Success = true` with a nil error and
leaves the whole state as it was: the membership table, hence the result of
`ListNodes`, and the ring are unchanged and no member is created. -/
theorem Heartbeat_unknown (s : Server) (req : HeartbeatRequest)
    (h : req.NodeId ∉ mapKeys s.nodes) :
    Heartbeat s req = (s, { Success := true }, none) ∧
    (Heartbeat s req).1.nodes = s.nodes ∧
    (Heartbeat s req).1.consistent = s.consistent ∧
    ListNodes (Heartbeat s req).1 = ListNodes s ∧
    req.NodeId ∉ mapKeys (Heartbeat s req).1.nodes := by
  have hl : mapLookup s.nodes req.NodeId = none := (mapLookup_eq_none_iff _ _).2 h
  have he : Heartbeat s req = (s, { Success := true }, none) := by
    simp only [Heartbeat, hl]
  rw [he]
  exact ⟨rfl, rfl, rfl, rfl, h⟩

/-- Claim C6.  On every registry reachable from `NewServer` by `RegisterNode` and
`Heartbeat`, for every file id, every `ChunkCount >= 0` and every iteration
order of the fallback loop: `GetUploadNodes` returns (it does not panic) exactly
`ChunkCount` records when the membership table is non-empty and none when the
table is empty, every returned record is one of the table, and when the table
holds the single id `n1` every returned record has `NodeId = n1`. -/
theorem GetUploadNodes_count (s : Server) (hs : ServerReachable s)
    (req : GetUploadNodesRequest) (hcc : 0 ≤ req.ChunkCount) (order : Nat → Nat) :
    ∃ nodes, GetUploadNodes s req order = some nodes ∧
      (s.nodes ≠ [] → (nodes.length : Int) = req.ChunkCount) ∧
      (s.nodes = [] → nodes = []) ∧
      (∀ n ∈ nodes, n ∈ ListNodes s) ∧
      (∀ n1, mapKeys s.nodes = [n1] → ∀ n ∈ nodes, n.NodeId = n1) := by
  have hinv := ServerReachable_inv s hs
  obtain ⟨out, ho, h1, h2, h3⟩ :=
    uploadLoop_spec s hinv req.FileId order (List.range req.ChunkCount.toNat) []
  have hin : ∀ n ∈ out, n ∈ ListNodes s := by
    intro n hn
    rcases h3 n hn with h | h
    · simp at h
    · exact h
  refine ⟨out, ho, ?_, h2, hin, ?_⟩
  · intro hne
    rw [h1 hne]
    simp only [List.length_nil, List.length_range, Nat.zero_add]
    exact Int.toNat_of_nonneg hcc
  · intro n1 hk n hn
    obtain ⟨e, he, hen⟩ := List.mem_map.1 (hin n hn)
    have hkey : e.1 ∈ mapKeys s.nodes := List.mem_map_of_mem Prod.fst he
    rw [hk, List.mem_singleton] at hkey
    rw [← hen, ← hkey]
    exact hinv.ids e.1 e.2 he

/-- Claim C2, refuted as stated: on the reachable ring whose members are the
empty id and `b`, after `RemoveNode(b)` a member remains (`GetNodes()` lists the
empty id), and `GetNode` returns the empty string for the key `test-key`: some
member remains and the result is not a non-empty string. -/
theorem RemoveNode_leaves_empty_id :
    RingReachable 3 ringE ∧ str "b" ≠ [] ∧
    GetNodes (RemoveNode ringE (str "b")) = [[]] ∧
    GetNodes (RemoveNode ringE (str "b")) ≠ [] ∧
    GetNode (RemoveNode ringE (str "b")) (str "test-key") = some [] :=
  ⟨RingReachable.add _ _ (RingReachable.add _ _ RingReachable.init), by decide, by decide!,
    by decide!, by decide!⟩

/-- Claim C9, refuted as stated: on the reachable ring that holds only `idY`,
`RemoveNode(idX)` deletes the entry stored under member `idY`, although the
node map restricted to the entries whose member is not `idX` still holds it;
`idY` was listed by `GetNodes()` and is not listed afterwards. -/
theorem RemoveNode_deletes_colliding_member :
    RingReachable 1 ringY ∧ idY ≠ idX ∧
    ringY.nodes = [(4043864473, idY)] ∧
    (RemoveNode ringY idX).nodes = [] ∧
    (RemoveNode ringY idX).nodes ≠ ringY.nodes.filter (fun e => !decide (e.2 = idX)) ∧
    idY ∈ GetNodes ringY ∧ idY ∉ GetNodes (RemoveNode ringY idX) :=
  ⟨RingReachable.add _ _ RingReachable.init, by decide!, by decide!, by decide!, by decide!,
    by decide!, by decide!⟩

/-- Claim C9, amended.  On every ring reachable by `AddNode` and `RemoveNode` and
for every `id`: `RemoveNode(id)` deletes exactly the entries of the node map
stored under the hashes of the virtual keys `id#0 .. id#(replicas-1)`, which
include every entry whose member is `id`, and `sortedHashes` becomes the
ascending list of the remaining keys.  When no entry of another member is
stored under one of those hashes, the node map is the previous one restricted
to the entries whose member is not `id`, and every other member listed by
`GetNodes()` is still listed. -/
theorem RemoveNode_frame (r : Int) (c : Consistent) (hc : RingReachable r c) (id : GoString) :
    (RemoveNode c id).nodes =
      c.nodes.filter (fun e => !decide (e.1 ∈ vhashes r id)) ∧
    (∀ e ∈ c.nodes, e.2 = id → e ∉ (RemoveNode c id).nodes) ∧
    (RemoveNode c id).sortedHashes.Sorted (fun a b => a ≤ b) ∧
    (RemoveNode c id).sortedHashes.Perm (mapKeys (RemoveNode c id).nodes) ∧
    ((∀ e ∈ c.nodes, e.2 ≠ id → e.1 ∉ vhashes r id) →
      (RemoveNode c id).nodes = c.nodes.filter (fun e => !decide (e.2 = id)) ∧
      ∀ m ∈ GetNodes c, m ≠ id → m ∈ GetNodes (RemoveNode c id)) := by
  obtain ⟨hinv, hrep⟩ := RingReachable_inv r c hc
  subst hrep
  refine ⟨RemoveNode_nodes c id, ?_, ?_, ?_, ?_⟩
  · intro e he hid hmem
    have hv := ((mem_RemoveNode_nodes c id e).1 hmem).2
    apply hv
    have := hinv.owned e.1 e.2 he
    rwa [hid] at this
  · rw [RemoveNode_sortedHashes]
    exact sorted_sortSlice _
  · rw [RemoveNode_sortedHashes]
    exact List.perm_insertionSort _ _
  · intro hno
    constructor
    · rw [RemoveNode_nodes]
      apply List.filter_congr
      intro e he
      by_cases hid : e.2 = id
      · have := hinv.owned e.1 e.2 he
        rw [hid] at this
        simp [hid, this]
      · simp [hid, hno e he hid]
    · intro m hm hne
      rw [mem_GetNodes] at hm ⊢
      obtain ⟨h, hm⟩ := hm
      exact ⟨h, (mem_RemoveNode_nodes c id (h, m)).2 ⟨hm, hno (h, m) hm hne⟩⟩

/-- Claim C3, refuted as stated: on the reachable ring with replica count 1 that
holds the member `idX`, `AddNode(idY)` overwrites the one entry of `idX`,
because the two virtual keys have the same CRC-32 value; `GetNodes()` listed
`idX` before the call and lists only `idY` after it. -/
theorem AddNode_drops_colliding_member :
    RingReachable 1 ringX ∧ (1 : Int) ≤ 1 ∧ idX ≠ idY ∧
    GetNodes ringX = [idX] ∧
    GetNodes (AddNode ringX idY) = [idY] ∧
    idX ∉ GetNodes (AddNode ringX idY) :=
  ⟨RingReachable.add _ _ RingReachable.init, by decide, by decide!, by decide!, by decide!,
    by decide!⟩

/-- Claim C3, amended.  On every ring with replica count at least 1 reachable by
`AddNode` and `RemoveNode` and for every `id`: after `AddNode(id)` the list
`GetNodes()` holds every member once and consists of `id` and of exactly those
previous members that keep an entry whose hash is not the hash of a virtual key
of `id`; so it is, as a set, the previous `GetNodes()` together with `id` if and
only if every other previous member keeps such an entry.  Hence, when pairwise
distinct ids are added to the empty ring, the members are those ids that have a
virtual-key hash shared by no id added later, and there are as many members as
ids if and only if every id has such a hash. -/
theorem AddNode_members (r : Int) (c : Consistent) (hc : RingReachable r c) (hr : 1 ≤ r)
    (id : GoString) :
    (GetNodes (AddNode c id)).Nodup ∧
    id ∈ GetNodes (AddNode c id) ∧
    (∀ m, m ∈ GetNodes (AddNode c id) ↔
      m = id ∨ ∃ h, (h, m) ∈ c.nodes ∧ h ∉ vhashes r id) ∧
    ((∀ m, m ∈ GetNodes (AddNode c id) ↔ m = id ∨ m ∈ GetNodes c) ↔
      ∀ m ∈ GetNodes c, m ≠ id → ∃ h, (h, m) ∈ c.nodes ∧ h ∉ vhashes r id) ∧
    (∀ ids : List GoString, ids.Nodup →
      (∀ m, m ∈ GetNodes (ids.foldl AddNode (NewConsistent r)) ↔ SurvivesIn r m ids) ∧
      (∀ m ∈ GetNodes (ids.foldl AddNode (NewConsistent r)), m ∈ ids) ∧
      ((GetNodes (ids.foldl AddNode (NewConsistent r))).length = ids.length ↔
        AllKeepSlot r ids)) := by
  obtain ⟨hinv, hrep⟩ := RingReachable_inv r c hc
  subst hrep
  have hne := vhashes_ne_nil c.replicas id hr
  have hexact : ∀ m, m ∈ GetNodes (AddNode c id) ↔
      m = id ∨ ∃ h, (h, m) ∈ c.nodes ∧ h ∉ vhashes c.replicas id := by
    intro m
    rw [mem_GetNodes_AddNode c id hinv]
    constructor
    · rintro (⟨hm, _⟩ | h)
      · exact Or.inl hm
      · exact Or.inr h
    · rintro (hm | h)
      · exact Or.inl ⟨hm, hne⟩
      · exact Or.inr h
  refine ⟨GetNodes_nodup _, (hexact id).2 (Or.inl rfl), hexact, ?_, ?_⟩
  · constructor
    · intro heq m hm hmid
      rcases (hexact m).1 ((heq m).2 (Or.inr hm)) with h | h
      · exact absurd h hmid
      · exact h
    · intro hkeep m
      rw [hexact m]
      constructor
      · rintro (hm | ⟨h, hm, _⟩)
        · exact Or.inl hm
        · exact Or.inr ((mem_GetNodes c m).2 ⟨h, hm⟩)
      · rintro (hm | hm)
        · exact Or.inl hm
        · by_cases hmid : m = id
          · exact Or.inl hmid
          · exact Or.inr (hkeep m hm hmid)
  · intro ids hnd
    have hiff : ∀ m, m ∈ GetNodes (ids.foldl AddNode (NewConsistent c.replicas)) ↔
        SurvivesIn c.replicas m ids := by
      intro m
      rw [mem_GetNodes_foldl c.replicas ids (NewConsistent c.replicas)
        (RingInv_NewConsistent _) rfl m]
      simp [NewConsistent]
    have hsub : ∀ m ∈ GetNodes (ids.foldl AddNode (NewConsistent c.replicas)), m ∈ ids :=
      fun m hm => mem_of_SurvivesIn _ m ids ((hiff m).1 hm)
    refine ⟨hiff, hsub, ?_⟩
    rw [length_eq_iff_of_subset _ ids (GetNodes_nodup _) hnd hsub, AllKeepSlot_iff _ ids hnd]
    constructor
    · intro h m hm
      exact (hiff m).1 (h m hm)
    · intro h m hm
      exact (hiff m).2 (h m hm)

/-- Claim C5, refuted as stated: `n1` is a key of the membership table of
`serverN1`, and registering it once more makes `sortedHashes` grow from 100 to
200 entries, so the slice is not what it was before the call. -/
theorem RegisterNode_again_grows_slice :
    reqN1.NodeId ∈ mapKeys serverN1.nodes ∧
    serverN1.consistent.sortedHashes.length = 100 ∧
    (RegisterNode serverN1 reqN1).1.consistent.sortedHashes.length = 200 ∧
    (RegisterNode serverN1 reqN1).1.consistent.sortedHashes ≠
      serverN1.consistent.sortedHashes := by
  have h1 : serverN1.consistent.sortedHashes.length = 100 := by
    simp [serverN1, RegisterNode_consistent, AddNode_sortedHashes_length, NewServer,
      NewConsistent]
  have h2 : (RegisterNode serverN1 reqN1).1.consistent.sortedHashes.length = 200 := by
    rw [RegisterNode_consistent, AddNode_sortedHashes_length, h1]
    simp [serverN1, RegisterNode_consistent, AddNode_replicas, NewServer, NewConsistent]
  refine ⟨by decide, h1, h2, ?_⟩
  intro he
  rw [he, h1] at h2
  exact absurd h2 (by decide)

/-- Claim C5, amended.  On every registry reachable from `NewServer` in which the
id of the request is already a key of the membership table, `RegisterNode` runs
`AddNode` again: `sortedHashes` stays ascending and holds the same hashes as
before but is exactly 100 entries longer; the node map has the same keys and the
same number of entries, keeps every entry outside the hashes of the virtual
nodes of the id, and stores the id under each of those hashes; it is unchanged
altogether when each of those hashes was stored under the id before the call. -/
theorem RegisterNode_known (s : Server) (hs : ServerReachable s) (req : RegisterRequest)
    (hk : req.NodeId ∈ mapKeys s.nodes) :
    ((RegisterNode s req).1.consistent.sortedHashes.length =
      s.consistent.sortedHashes.length + 100) ∧
    (RegisterNode s req).1.consistent.sortedHashes.Sorted (fun a b => a ≤ b) ∧
    (∀ h, h ∈ (RegisterNode s req).1.consistent.sortedHashes ↔ h ∈ s.consistent.sortedHashes) ∧
    (∀ h, h ∈ mapKeys (RegisterNode s req).1.consistent.nodes ↔ h ∈ mapKeys s.consistent.nodes) ∧
    (RegisterNode s req).1.consistent.nodes.length = s.consistent.nodes.length ∧
    (∀ h, h ∉ vhashes 100 req.NodeId →
      mapLookup (RegisterNode s req).1.consistent.nodes h = mapLookup s.consistent.nodes h) ∧
    (∀ h ∈ vhashes 100 req.NodeId,
      mapLookup (RegisterNode s req).1.consistent.nodes h = some req.NodeId) ∧
    ((∀ h ∈ vhashes 100 req.NodeId, mapLookup s.consistent.nodes h = some req.NodeId) →
      (RegisterNode s req).1.consistent.nodes = s.consistent.nodes) := by
  have hinv := ServerReachable_inv s hs
  obtain ⟨hring, hrep⟩ := RingReachable_inv 100 _ hinv.ring
  have hring' : RingInv (AddNode s.consistent req.NodeId) := RingInv_AddNode _ _ hring
  have hkeys : ∀ h, h ∈ mapKeys (AddNode s.consistent req.NodeId).nodes ↔
      h ∈ mapKeys s.consistent.nodes := by
    intro h
    rw [mem_mapKeys_AddNode, hrep]
    constructor
    · rintro (hv | hm)
      · exact hinv.inRing _ hk h hv
      · exact hm
    · exact Or.inr
  simp only [RegisterNode_consistent]
  refine ⟨?_, hring'.sorted, ?_, hkeys, ?_, ?_, ?_, ?_⟩
  · rw [AddNode_sortedHashes_length, hrep]
    rfl
  · intro h
    rw [hring'.hashes_iff, hkeys, hring.hashes_iff]
  · exact length_eq_of_mapKeys_iff _ _ hring.nodupKeys hring'.nodupKeys hkeys
  · intro h hv
    rw [AddNode_lookup, hrep]
    simp only [hv, if_false]
  · intro h hv
    rw [AddNode_lookup, hrep]
    simp only [hv, if_true]
  · intro hall
    apply AddNode_again_nodes
    rw [hrep]
    exact hall

/-! ## The theorems at concrete rings and registries -/

theorem ringAB_reachable : RingReachable 3 ringAB :=
  RingReachable.add _ _ (RingReachable.add _ _ RingReachable.init)

theorem serverN1_reachable : ServerReachable serverN1 :=
  ServerReachable.register _ _ ServerReachable.init

/-- Witness of C1: on the ring with members `a` and `b` the index read for the
key `test-file-123` is inside the slice, and the key resolves to `a`. -/
theorem GetNode_successor_witness :
    RingReachable 3 ringAB ∧ ringAB.nodes.length ≠ 0 ∧
    ringIndex ringAB (str "test-file-123") < ringAB.sortedHashes.length ∧
    GetNode ringAB (str "test-file-123") = some (str "a") :=
  ⟨ringAB_reachable, by decide!,
    ((GetNode_successor 3 ringAB ringAB_reachable (str "test-file-123")).2 (by decide!)).1,
    by decide!⟩

theorem ringTest_reachable : RingReachable 100 ringTest :=
  RingReachable.add _ _ (RingReachable.add _ _ RingReachable.init)

/-- Witness of C2 as amended: the ring of `TestConsistent_RemoveNode`; after
`RemoveNode(node1)` only `node2` is listed and the key `test-key` resolves to a
listed member that is not the empty string. -/
theorem RemoveNode_excludes_witness :
    RingReachable 100 ringTest ∧ str "node1" ≠ [] ∧
    GetNodes (RemoveNode ringTest (str "node1")) = [str "node2"] ∧
    ∃ m, GetNode (RemoveNode ringTest (str "node1")) (str "test-key") = some m ∧
      m ∈ GetNodes (RemoveNode ringTest (str "node1")) ∧ m ≠ [] := by
  have hlist : GetNodes (RemoveNode ringTest (str "node1")) = [str "node2"] := by decide!
  obtain ⟨m, hg, hm, hne⟩ :=
    (RemoveNode_excludes 100 ringTest ringTest_reachable (str "node1") (by decide)).2.2
      (by rw [hlist]; decide) (str "test-key")
  exact ⟨ringTest_reachable, by decide, hlist, m, hg, hm, hne (by rw [hlist]; decide)⟩

/-- The assertion of `TestConsistent_RemoveNode`: after `node1` is removed the key
`test-key` resolves to `node2`, a non-empty result. -/
theorem TestConsistent_RemoveNode :
    GetNode (RemoveNode ringTest (str "node1")) (str "test-key") = some (str "node2") ∧
    str "node2" ≠ [] := by
  decide!

/-- Witness of C3: the scenario with replica count 3, members `a` and `b`, and
the new member `c`, whose nine virtual keys have nine different hashes; and the
ids `idP` and `idQ`, which share two of their three hashes and are both members
all the same. -/
theorem AddNode_members_witness :
    RingReachable 3 ringAB ∧ (1 : Int) ≤ 3 ∧
    [str "a", str "b", str "c"].Nodup ∧ AllKeepSlot 3 [str "a", str "b", str "c"] ∧
    (GetNodes ([str "a", str "b", str "c"].foldl AddNode (NewConsistent 3))).length = 3 ∧
    [idP, idQ].Nodup ∧ AllKeepSlot 3 [idP, idQ] ∧
    (GetNodes ([idP, idQ].foldl AddNode (NewConsistent 3))).length = 2 :=
  ⟨ringAB_reachable, by decide, by decide, by decide!,
    ((AddNode_members 3 ringAB ringAB_reachable (by decide) (str "c")).2.2.2.2
      [str "a", str "b", str "c"] (by decide)).2.2.2 (by decide!),
    by decide, by decide!,
    ((AddNode_members 3 ringAB ringAB_reachable (by decide) (str "c")).2.2.2.2
      [idP, idQ] (by decide)).2.2.2 (by decide!)⟩

/-- The ids `idP` and `idQ` share the hashes 168465100 and 3825529824. -/
theorem vhashes_partial_collision :
    vhashes 3 idP = [3825529824, 2466497398, 168465100] ∧
    vhashes 3 idQ = [168465100, 2098045530, 3825529824] := by
  decide!

/-- Witness of C4: `n1` registered twice on the fresh registry. -/
theorem RegisterNode_twice_witness :
    ServerReachable NewServer ∧
    ∀ key, GetNode (RegisterNode serverN1 reqN1).1.consistent key =
      GetNode serverN1.consistent key :=
  ⟨ServerReachable.init,
    (RegisterNode_twice NewServer ServerReachable.init (str "n1") (str "localhost:50052")
      (str "localhost:50052") 100 100).2.2.2⟩

/-- Witness of C5 as amended: `n1` registered again on the registry that holds it. -/
theorem RegisterNode_known_witness :
    ServerReachable serverN1 ∧ reqN1.NodeId ∈ mapKeys serverN1.nodes ∧
    (RegisterNode serverN1 reqN1).1.consistent.sortedHashes.length =
      serverN1.consistent.sortedHashes.length + 100 :=
  ⟨serverN1_reachable, by decide,
    (RegisterNode_known serverN1 serverN1_reachable reqN1 (by decide)).1⟩

/-- Witness of C6: the scenario with the one member `n1` and four chunks of
`file1`. -/
theorem GetUploadNodes_count_witness :
    ServerReachable serverN1 ∧ (0 : Int) ≤ 4 ∧
    ∃ nodes, GetUploadNodes serverN1 { FileId := str "file1", ChunkCount := 4 } (fun _ => 0) =
        some nodes ∧
      (nodes.length : Int) = 4 ∧ ∀ n ∈ nodes, n.NodeId = str "n1" := by
  obtain ⟨nodes, h, h1, _, _, h4⟩ :=
    GetUploadNodes_count serverN1 serverN1_reachable { FileId := str "file1", ChunkCount := 4 }
      (by decide) (fun _ => 0)
  exact ⟨serverN1_reachable, by decide, nodes, h, h1 (by decide), h4 (str "n1") (by decide)⟩

/-- Witness of C8: a heartbeat of an id the registry does not hold. -/
theorem Heartbeat_unknown_witness :
    str "unknown-id" ∉ mapKeys serverN1.nodes ∧
    ListNodes
        (Heartbeat serverN1
          { NodeId := str "unknown-id", AvailableSpace := 5, ChunkCount := 0 }).1 =
      ListNodes serverN1 :=
  ⟨by decide,
    (Heartbeat_unknown serverN1
      { NodeId := str "unknown-id", AvailableSpace := 5, ChunkCount := 0 } (by decide)).2.2.2.1⟩

/-- Witness of C9 as amended: removing `a` from the ring with members `a` and
`b`, where no entry of `b` sits at a hash of a virtual key of `a`. -/
theorem RemoveNode_frame_witness :
    RingReachable 3 ringAB ∧
    (∀ e ∈ ringAB.nodes, e.2 ≠ str "a" → e.1 ∉ vhashes 3 (str "a")) ∧
    (RemoveNode ringAB (str "a")).nodes =
      ringAB.nodes.filter (fun e => !decide (e.2 = str "a")) :=
  ⟨ringAB_reachable, by decide!,
    ((RemoveNode_frame 3 ringAB ringAB_reachable (str "a")).2.2.2.2 (by decide!)).1⟩

/-- Witness of C10: adding `c` to the ring with members `a` and `b`; the key
`test-file-123` moves from `a` to `c`. -/
theorem AddNode_minimal_remap_witness :
    RingReachable 3 ringAB ∧
    GetNode (AddNode ringAB (str "c")) (str "test-file-123") = some (str "c") ∧
    (GetNode (AddNode ringAB (str "c")) (str "test-file-123") = some (str "c") ∨
      GetNode (AddNode ringAB (str "c")) (str "test-file-123") =
        GetNode ringAB (str "test-file-123")) :=
  ⟨ringAB_reachable, by decide!,
    AddNode_minimal_remap 3 ringAB ringAB_reachable (str "c") (str "test-file-123")⟩

/-- The assertion of `TestConsistent_AddNode`: three members after three joins. -/
theorem TestConsistent_AddNode :
    (GetNodes (AddNode (AddNode (AddNode (NewConsistent 100) (str "node1")) (str "node2"))
      (str "node3"))).length = 3 := by
  decide!

/-- The scenario of the one member `n1`: four chunks of `file1` are all placed
on `n1`. -/
theorem GetUploadNodes_scenario :
    (GetUploadNodes serverN1 { FileId := str "file1", ChunkCount := 4 } (fun _ => 0)).map
      (fun nodes => nodes.map NodeInfo.NodeId) =
        some [str "n1", str "n1", str "n1", str "n1"] := by
  decide!

theorem runeString_one (i : Nat) (h : i ≤ 0x7F) : runeString i = [i] := by
  simp [runeString, h]

theorem runeString_two (i : Nat) (h1 : 0x7F < i) (h2 : i ≤ 0x7FF) :
    runeString i = [0xC0 + i / 64, 0x80 + i % 64] := by
  have e1 : ∀ x, x < 64 → 0x80 ||| x = 0x80 + x := by decide
  have e2 : ∀ x, x < 32 → 0xC0 ||| x = 0xC0 + x := by decide
  have hm : i &&& 0x3F = i % 64 := Nat.and_pow_two_sub_one_eq_mod i 6
  have hs : i >>> 6 = i / 64 := Nat.shiftRight_eq_div_pow i 6
  have hn : ¬ i ≤ 0x7F := by omega
  simp only [runeString, hn, if_false, h2, if_true, hm, hs]
  rw [e1 _ (by omega), e2 _ (by omega)]

theorem runeString_three (i : Nat) (h1 : 0x7FF < i) (h2 : i < 0xD800) :
    runeString i = [0xE0 + i / 4096, 0x80 + i / 64 % 64, 0x80 + i % 64] := by
  have e1 : ∀ x, x < 64 → 0x80 ||| x = 0x80 + x := by decide
  have e3 : ∀ x, x < 16 → 0xE0 ||| x = 0xE0 + x := by decide
  have hm : ∀ x : Nat, x &&& 0x3F = x % 64 := fun x => Nat.and_pow_two_sub_one_eq_mod x 6
  have hs : i >>> 6 = i / 64 := Nat.shiftRight_eq_div_pow i 6
  have hs2 : i >>> 12 = i / 4096 := Nat.shiftRight_eq_div_pow i 12
  have hn1 : ¬ i ≤ 0x7F := by omega
  have hn2 : ¬ i ≤ 0x7FF := by omega
  have hn3 : ¬ (i > 0x10FFFF ∨ (0xD800 ≤ i ∧ i ≤ 0xDFFF)) := by omega
  have hy : i ≤ 0xFFFF := by omega
  simp only [runeString, hn1, hn2, hn3, if_false, hy, if_true, hm, hs, hs2]
  rw [e1 _ (Nat.mod_lt _ (by decide)), e1 _ (Nat.mod_lt _ (by decide)), e3 _ (by omega)]

/-- Below the surrogate range the placement keys of one file are pairwise
distinct: the defect of `chunkKey` starts at ordinal 55296. -/
theorem chunkKey_injective_below_surrogates (fileId : GoString) (i j : Nat)
    (hi : i < 0xD800) (hj : j < 0xD800) (h : chunkKey fileId i = chunkKey fileId j) :
    i = j := by
  have h' : runeString i = runeString j := List.append_cancel_left h
  by_cases i1 : i ≤ 0x7F <;> by_cases j1 : j ≤ 0x7F <;>
    by_cases i2 : i ≤ 0x7FF <;> by_cases j2 : j ≤ 0x7FF <;>
    first
    | omega
    | (rw [runeString_one i i1, runeString_one j j1] at h'
       simpa using h')
    | (rw [runeString_one i i1, runeString_two j (by omega) j2] at h'
       simp at h')
    | (rw [runeString_one i i1, runeString_three j (by omega) hj] at h'
       simp at h')
    | (rw [runeString_two i (by omega) i2, runeString_one j j1] at h'
       simp at h')
    | (rw [runeString_three i (by omega) hi, runeString_one j j1] at h'
       simp at h')
    | (rw [runeString_two i (by omega) i2, runeString_two j (by omega) j2] at h'
       simp at h'
       omega)
    | (rw [runeString_two i (by omega) i2, runeString_three j (by omega) hj] at h'
       simp at h')
    | (rw [runeString_three i (by omega) hi, runeString_two j (by omega) j2] at h'
       simp at h')
    | (rw [runeString_three i (by omega) hi, runeString_three j (by omega) hj] at h'
       simp at h'
       omega)

/-- Claim C7, the defect: ordinals 55296 and 55297 are distinct and both below a
`ChunkCount` of 55298, and `GetUploadNodes` builds the same placement key for
them, because `string(rune(i))` maps every surrogate code point to U+FFFD. -/
theorem chunkKey_collision :
    (55296 : Nat) ≠ 55297 ∧ (55297 : Int) < 55298 ∧ (55298 : Int) < 2 ^ 31 ∧
    chunkKey (str "f") 55296 = chunkKey (str "f") 55297 ∧
    chunkKey (str "f") 55296 = str "f_chunk_" ++ [0xEF, 0xBF, 0xBD] := by
  decide

end Dfs
